import Mathlib

/-!
Verification development for the dxsr search/replace core
(python-docx-search-replace, src/dxsr/dxsr.py).

Texts are modelled as lists of characters (`Str`); a text fragment
(a w:t object) carries an optional text (Python `obj.text` may be `None`)
and, as provenance for hyperlink resolution, the list of rId-shaped
attribute values found on its hyperlink ancestor (`none` when the
grandparent element is not a w:hyperlink).  Fragment identity is the
index of the fragment in its paragraph list; mutation of `obj.text`
becomes functional update of the list at that index.
-/

set_option autoImplicit false

namespace Dxsr

/-- A Python string, modelled as its list of characters. -/
abbrev Str := List Char

/-- A w:t text object: optional text, plus the rId values carried by its
w:hyperlink grandparent (if the grandparent is a hyperlink element). -/
structure Fragment where
  text : Option Str
  hyper : Option (List Str) := none
  deriving Repr, DecidableEq

/-- One entry of the character map built at the start of find_matches:
a character, the index of the w:t object it came from, and its position
inside that object. -/
structure TMEntry where
  char : Char
  obj : Nat
  charpos : Nat
  deriving Repr, DecidableEq

/-- Entries contributed by one text object: one per character, with
running position `i` inside the object (the inner loop of find_matches). -/
def entries_of (j : Nat) : Nat → Str → List TMEntry
  | _, [] => []
  | i, c :: cs => ⟨c, j, i⟩ :: entries_of j (i + 1) cs

/-- The txt_map construction loop of find_matches, with `j` the index of
the current text object; objects whose text is None are skipped. -/
def build_aux : Nat → List Fragment → List TMEntry
  | _, [] => []
  | j, f :: rest =>
    match f.text with
    | none => build_aux (j + 1) rest
    | some s => entries_of j 0 s ++ build_aux (j + 1) rest

/-- Character map of a list of text objects (txt_map in find_matches). -/
def build_txt_map (frags : List Fragment) : List TMEntry :=
  build_aux 0 frags

/-- objects_to_text: concatenation of the texts of the objects, skipping
objects with no text (delim defaults to the empty string). -/
def objects_to_text : List Fragment → Str
  | [] => []
  | f :: rest =>
    (match f.text with
     | none => []
     | some s => s) ++ objects_to_text rest

/-- text_from_txt_map: the characters of txt_map in the inclusive index
range i_start .. i_end (the Python slice txt_map[i_start:i_end+1]). -/
def text_from_txt_map (i_start i_end : Nat) (txt_map : List TMEntry) : Str :=
  (((txt_map.drop i_start).take (i_end + 1 - i_start)).map (fun t => t.char))

/-- objects_from_txt_map: unique text-object indices in order of first
appearance in txt_map[i_start:i_end+1]. -/
def objects_from_txt_map (i_start i_end : Nat) (txt_map : List TMEntry) : List Nat :=
  ((txt_map.drop i_start).take (i_end + 1 - i_start)).foldl
    (fun objs t => if t.obj ∈ objs then objs else objs ++ [t.obj]) []

/-- clamp_max from the source. -/
def clamp_max (n n_max : Nat) : Nat :=
  if n > n_max then n_max else n

/-- check_txt_map_bounds: `true` when the bounds are acceptable, `false`
when the source raises its bad-bounds exception. -/
def check_txt_map_bounds (i_start i_end : Int) (map_len : Nat) : Bool :=
  !(decide (i_start < 0) || decide ((map_len : Int) ≤ i_start) || decide (i_end < 0)
    || decide ((map_len : Int) ≤ i_end) || decide (i_end < i_start))

/-- Read the text of the object at index `j` (None when out of range,
which never happens for indices coming from a txt_map). -/
def frag_text (frags : List Fragment) (j : Nat) : Option Str :=
  match frags.get? j with
  | some f => f.text
  | none => none

/-- Read the hyperlink rIds of the object at index `j`. -/
def frag_hyper (frags : List Fragment) (j : Nat) : Option (List Str) :=
  match frags.get? j with
  | some f => f.hyper
  | none => none

/-- Functionally update the text of the object at index `j`. -/
def set_frag_text (frags : List Fragment) (j : Nat) (t : Option Str) : List Fragment :=
  match frags.get? j with
  | some f => frags.set j { f with text := t }
  | none => frags

/-- Relationship lookup: rels_dict membership and indexing. -/
def rels_get (rels : List (Str × Str)) (k : Str) : Option Str :=
  match rels.find? (fun p => p.1 == k) with
  | some p => some p.2
  | none => none

/-- Overwrite the Target of the relation with id `k` (hl.attrib update). -/
def rels_set (rels : List (Str × Str)) (k v : Str) : List (Str × Str) :=
  rels.map (fun p => if p.1 == k then (k, v) else p)

/-- First loop of hyperlinks_for_text_objects: walk the objects, collect
the rId of each hyperlink ancestor; exactly one rId is collected (if new),
more than one is a fatal error, zero contributes nothing. -/
def collect_hl_ids (frags : List Fragment) : List Nat → List Str → Except String (List Str)
  | [], acc => .ok acc
  | obj :: rest, acc =>
    match frag_hyper frags obj with
    | none => collect_hl_ids frags rest acc
    | some rIds =>
      if rIds.length == 1 then
        let r := rIds.headD []
        collect_hl_ids frags rest (if r ∈ acc then acc else acc ++ [r])
      else if rIds.length > 1 then
        .error "Strange, a hyperlink parent object had more than one rId - this is an unknown case and not handled."
      else collect_hl_ids frags rest acc

/-- Second loop of hyperlinks_for_text_objects: each collected rId must
exist in the relationship table, else fatal error. -/
def resolve_hl_ids (rels : List (Str × Str)) : List Str → Except String (List Str)
  | [] => .ok []
  | r :: rest =>
    match rels_get rels r with
    | some _ => (resolve_hl_ids rels rest).map (fun l => r :: l)
    | none => .error "Hyperlink rId was not found in list of ids read from rels file!"

/-- hyperlinks_for_text_objects from the source: relations connected to
the given text objects, ordered and de-duplicated, as relation ids. -/
def hyperlinks_for_text_objects (frags : List Fragment) (rels : List (Str × Str))
    (objs : List Nat) : Except String (List Str) :=
  match collect_hl_ids frags objs [] with
  | .error msg => .error msg
  | .ok ids => resolve_hl_ids rels ids

/-- A match object reported by the pattern engine: match.start(),
match.end() (exclusive) and match.group(). -/
structure ReMatch where
  s : Nat
  e : Nat
  group : Str
  deriving Repr, DecidableEq

/-- A compiled pattern is its finditer behaviour: the list of matches the
engine reports on a given text, in order. -/
abbrev Pattern := Str → List ReMatch

/-- A match modifier: receives the current inclusive span, the character
map and the hyperlink relations, and returns a possibly adjusted span
(as Python ints, so it may return out-of-range or negative values). -/
abbrev Modifier := Nat → Nat → List TMEntry → List Str → Int × Int

/-- The dict returned by _get_match_info (re_object omitted; context is
present exactly when peeking is enabled). -/
structure MatchD where
  text : Str
  objects : List Nat
  startpos : Nat
  endpos : Nat
  hyperlinks : List Str
  context : Option Str := none
  deriving Repr, DecidableEq

/-- Fields of _get_match_info that the modifier loop rebuilds. -/
structure MState where
  i_s : Nat
  i_e : Nat
  objs : List Nat
  hls : List Str
  text : Str
  deriving Repr, DecidableEq

/-- Per-relation verbosity settings of the dxsr object. -/
structure DxsrConfig where
  peek_matches : Bool := true
  peek_max_chars : Nat := 40
  deriving Repr, DecidableEq

/-- Entry of txt_map at index i (only used at checked indices). -/
def tm_get (txt_map : List TMEntry) (i : Nat) : TMEntry :=
  (txt_map.get? i).getD ⟨' ', 0, 0⟩

/-- Body of the match-modifier loop of _get_match_info: if the modifier
changed the span, validate bounds and rebuild objects, hyperlinks and
match text. -/
def apply_modifier (frags : List Fragment) (rels : List (Str × Str))
    (txt_map : List TMEntry) (st : MState) (modifier : Modifier) :
    Except String MState :=
  let (new_s, new_e) := modifier st.i_s st.i_e txt_map st.hls
  if new_s == (st.i_s : Int) && new_e == (st.i_e : Int) then .ok st
  else if !check_txt_map_bounds new_s new_e txt_map.length then
    .error "Bad i_start or i_end"
  else
    let objs := objects_from_txt_map new_s.toNat new_e.toNat txt_map
    match hyperlinks_for_text_objects frags rels objs with
    | .error msg => .error msg
    | .ok hls =>
      .ok ⟨new_s.toNat, new_e.toNat, objs, hls,
           text_from_txt_map new_s.toNat new_e.toNat txt_map⟩

/-- Context string attached when peek_matches is set: up to
peek_max_chars characters before and after the match. -/
def peek_context (cfg : DxsrConfig) (i_s i_e : Nat) (match_text : Str)
    (txt_map : List TMEntry) : Str :=
  let max_before := clamp_max i_s cfg.peek_max_chars
  let max_after := clamp_max (txt_map.length - i_e) cfg.peek_max_chars
  let text_before := if i_s > 0 then text_from_txt_map (i_s - max_before) (i_s - 1) txt_map else []
  let text_after := if txt_map.length > i_e then text_from_txt_map (i_e + 1) (i_e + max_after) txt_map else []
  text_before ++ match_text ++ text_after

/-- _get_match_info from the source: bounds checks, text fidelity check
against match.group(), object and hyperlink resolution, modifier loop,
and optional context peeking. -/
def _get_match_info (cfg : DxsrConfig) (frags : List Fragment) (rels : List (Str × Str))
    (re_match : ReMatch) (txt_map : List TMEntry) (modifiers : List Modifier) :
    Except String MatchD :=
  if txt_map.length == 0 then .error "Empty txt_map!"
  else if !check_txt_map_bounds (re_match.s : Int) ((re_match.e : Int) - 1) txt_map.length then
    .error "Bad i_start or i_end"
  else
    let i_start := re_match.s
    let i_end := re_match.e - 1
    let match_text := text_from_txt_map i_start i_end txt_map
    if match_text = re_match.group then
      let match_objects := objects_from_txt_map i_start i_end txt_map
      match hyperlinks_for_text_objects frags rels match_objects with
      | .error msg => .error msg
      | .ok hyperlink_objects =>
        match modifiers.foldlM (apply_modifier frags rels txt_map)
            ⟨i_start, i_end, match_objects, hyperlink_objects, match_text⟩ with
        | .error msg => .error msg
        | .ok st =>
          let dict_entry : MatchD :=
            { text := st.text, objects := st.objs,
              startpos := (tm_get txt_map st.i_s).charpos,
              endpos := (tm_get txt_map st.i_e).charpos,
              hyperlinks := st.hls }
          if cfg.peek_matches then
            .ok { dict_entry with
                    context := some (peek_context cfg st.i_s st.i_e st.text txt_map) }
          else
            .ok dict_entry
    else
      .error "Fatal error, match_from_txt_map != re_match.group()!"

/-- Inner loop of find_matches for one pattern: matches starting at or
past the end of the character map are skipped silently; all others go
through _get_match_info. -/
def find_matches_loop (cfg : DxsrConfig) (frags : List Fragment) (rels : List (Str × Str))
    (txt_map : List TMEntry) (modifiers : List Modifier) (len_txt_map : Nat) :
    List ReMatch → Except String (List MatchD)
  | [] => .ok []
  | m :: rest =>
    if m.s ≥ len_txt_map then
      find_matches_loop cfg frags rels txt_map modifiers len_txt_map rest
    else
      match _get_match_info cfg frags rels m txt_map modifiers with
      | .error msg => .error msg
      | .ok mi =>
        match find_matches_loop cfg frags rels txt_map modifiers len_txt_map rest with
        | .error msg => .error msg
        | .ok more => .ok (mi :: more)

/-- Outer loop of find_matches over the pattern list. -/
def find_patterns_loop (cfg : DxsrConfig) (frags : List Fragment) (rels : List (Str × Str))
    (txt_map : List TMEntry) (modifiers : List Modifier) (len_txt_map : Nat) (txt : Str) :
    List Pattern → Except String (List MatchD)
  | [] => .ok []
  | p :: ps =>
    match find_matches_loop cfg frags rels txt_map modifiers len_txt_map (p txt) with
    | .error msg => .error msg
    | .ok ms =>
      match find_patterns_loop cfg frags rels txt_map modifiers len_txt_map txt ps with
      | .error msg => .error msg
      | .ok more => .ok (ms ++ more)

/-- find_matches from the source: build the character map (empty map
short-circuits to no matches), flatten the text, run every pattern. -/
def find_matches (cfg : DxsrConfig) (rels : List (Str × Str)) (text_objects : List Fragment)
    (patterns : List Pattern) (match_modifiers : List Modifier) :
    Except String (List MatchD) :=
  let txt_map := build_txt_map text_objects
  if txt_map.length == 0 then .ok []
  else
    let txt := objects_to_text text_objects
    find_patterns_loop cfg text_objects rels txt_map match_modifiers txt_map.length txt patterns

/-- insert_str from the source. -/
def insert_str (string str_to_insert : Str) (index : Nat) : Str :=
  string.take index ++ str_to_insert ++ string.drop index

/-- The in-memory document state the core mutates: the fragments of the
paragraph being edited and the relationship table. -/
structure DocState where
  frags : List Fragment
  rels : List (Str × Str)
  deriving Repr, DecidableEq

/-- A replacement-decision function: receives the matched text, the
current hyperlink targets and the spanned text objects (their texts at
call time), and returns optional replacement text and optional new
hyperlink target. -/
abbrev ReplaceFunc := Str → List Str → List (Option Str) → Option Str × Option Str

/-- One iteration of the match-deletion loop of replace_match, acting on
the object with absolute index `obj`, read and written at list position
`obj - off` (`off = 0` for replace_match itself; the offset form is used
to reason about suffixes of the fragment list). -/
def del_step (startpos endpos first_obj last_obj off : Nat)
    (frags : List Fragment) (obj : Nat) : List Fragment :=
  let original := (frag_text frags (obj - off)).getD []
  let frags1 :=
    if obj == first_obj then
      set_frag_text frags (obj - off) (some (original.take startpos))
    else frags
  if obj == last_obj then
    if obj == first_obj then
      let cur := (frag_text frags1 (obj - off)).getD []
      set_frag_text frags1 (obj - off) (some (cur ++ original.drop (endpos + 1)))
    else
      set_frag_text frags1 (obj - off) (some (original.drop (endpos + 1)))
  else if obj != first_obj && obj != last_obj then
    set_frag_text frags1 (obj - off) (some [])
  else frags1

/-- The deletion loop of replace_match: deletes the matched text from the
spanned objects and records the object index and in-object position where
a replacement is to be inserted. -/
def del_loop (startpos endpos first_obj last_obj : Nat) :
    List Nat → List Fragment × Nat × Nat → List Fragment × Nat × Nat
  | [], acc => acc
  | obj :: rest, (frags, owr, ridx) =>
    let original := (frag_text frags obj).getD []
    let frags1 :=
      if obj == first_obj then
        set_frag_text frags obj (some (original.take startpos))
      else frags
    let next :=
      if obj == last_obj then
        if obj == first_obj then
          let cur := (frag_text frags1 obj).getD []
          (set_frag_text frags1 obj (some (cur ++ original.drop (endpos + 1))), obj, cur.length)
        else
          (set_frag_text frags1 obj (some (original.drop (endpos + 1))), obj, 0)
      else if obj != first_obj && obj != last_obj then
        (set_frag_text frags1 obj (some []), owr, ridx)
      else (frags1, owr, ridx)
    del_loop startpos endpos first_obj last_obj rest next

/-- Fragment state after the deletion phase of replace_match, together
with the recorded insertion object and position. -/
def del_result (st : DocState) (m : MatchD) : List Fragment × Nat × Nat :=
  del_loop m.startpos m.endpos (m.objects.headD 0) (m.objects.getLastD 0)
    m.objects (st.frags, 0, 0)

/-- The deletion fold with offset bookkeeping: apply the per-object
deletion steps of replace_match to a suffix of the fragment list that
starts at absolute object index `off`. -/
def upd_fold (stp edp fo lo off : Nat) (frags : List Fragment) (objs : List Nat) :
    List Fragment :=
  objs.foldl (del_step stp edp fo lo off) frags

/-- The insertion step of replace_match: splice `r` into the text of the
object at list position `p`, at in-object position `idx`. -/
def ins_at (frags : List Fragment) (p : Nat) (r : Str) (idx : Nat) : List Fragment :=
  set_frag_text frags p (some (insert_str ((frag_text frags p).getD []) r idx))

/-- replace_match from the source: delete the match from the spanned
objects, ask the decision function for a replacement, splice in the
replacement text (if any) and overwrite hyperlink targets (if any). -/
def replace_match (st : DocState) (m : MatchD) (replace_func : ReplaceFunc) :
    DocState × Bool :=
  let (frags1, obj_with_replacement, replace_index) := del_result st m
  let match_hls := m.hyperlinks.map (fun r => (rels_get st.rels r).getD [])
  let (replacement_text, new_hl_target) :=
    replace_func m.text match_hls (m.objects.map (fun o => frag_text frags1 o))
  let (frags2, modified1) :=
    match replacement_text with
    | some r =>
      (set_frag_text frags1 obj_with_replacement
        (some (insert_str ((frag_text frags1 obj_with_replacement).getD []) r replace_index)), true)
    | none => (frags1, false)
  let (rels2, modified2) :=
    match new_hl_target with
    | some t =>
      if m.hyperlinks.length > 0 then
        (m.hyperlinks.foldl (fun rs r => rels_set rs r t) st.rels, true)
      else (st.rels, false)
    | none => (st.rels, false)
  (⟨frags2, rels2⟩, modified1 || modified2)

/-- Loop of replace_all: replace matches one at a time, stopping as soon
as the running count equals max_replacements. -/
def replace_all_loop (st : DocState) (f : ReplaceFunc) (max_replacements : Int) :
    List MatchD → Nat → DocState × Nat
  | [], n => (st, n)
  | m :: rest, n =>
    let st1 := (replace_match st m f).1
    let n1 := n + 1
    if (n1 : Int) == max_replacements then (st1, n1)
    else replace_all_loop st1 f max_replacements rest n1

/-- replace_all from the source: negative limits are a ValueError; with
max_replacements > 0 only that many leading matches are replaced. -/
def replace_all (st : DocState) (match_list : List MatchD) (f : ReplaceFunc)
    (max_replacements : Int) : Except String (DocState × Nat) :=
  if max_replacements < 0 then .error "max_replacements must be >= 0"
  else .ok (replace_all_loop st f max_replacements match_list 0)

/-- A compiled pattern as a dictionary key: either the result of
re.compile(re.escape(s), 0) on a raw string s (determined by s), or a
pattern object supplied by the caller (opaquely identified). -/
inductive CPat where
  | escaped (s : Str)
  | given (id : Nat)
  deriving Repr, DecidableEq

/-- A search key of the dictionary passed to search_replace_dict: a raw
string or a compiled pattern. -/
inductive SKey where
  | str (s : Str)
  | pat (p : CPat)
  deriving Repr, DecidableEq

/-- A dictionary value: a literal replacement string, or a replacement
function (the only callables stored in the dict). -/
inductive PyRepl where
  | lit (s : Str)
  | func (f : ReplaceFunc)

/-- to_replacement_func from the source: a callable is returned as is, a
string becomes a function constantly returning that string and no new
hyperlink.  (Any other type raises in Python; the model's value type only
contains the two supported cases.) -/
def to_replacement_func : PyRepl → ReplaceFunc
  | .func f => f
  | .lit s => fun _ _ _ => (some s, none)

/-- A Python dict from search keys to replacement values, as an
association list with unique keys. -/
abbrev PyDict := List (SKey × PyRepl)

/-- Python: dictionary[k] = v (update in place, or append a new key). -/
def dict_set (d : PyDict) (k : SKey) (v : PyRepl) : PyDict :=
  if d.any (fun kv => kv.1 == k) then
    d.map (fun kv => if kv.1 == k then (k, v) else kv)
  else d ++ [(k, v)]

/-- Python: dictionary.pop(k) (the removal part). -/
def dict_pop (d : PyDict) (k : SKey) : PyDict :=
  d.filter (fun kv => kv.1 != k)

/-- Body of the key-normalization loop of search_replace_dict for one
item of the caller's dict: the value is replaced in place by a
replacement function; a raw-string key is popped and re-inserted as a
compiled-pattern key (the popped value is the function just stored). -/
def srd_step (d : PyDict) (kv : SKey × PyRepl) : PyDict :=
  let d1 := dict_set d kv.1 (.func (to_replacement_func kv.2))
  match kv.1 with
  | .str s => dict_set (dict_pop d1 kv.1) (.pat (.escaped s)) (.func (to_replacement_func kv.2))
  | .pat _ => d1

/-- The key-normalization phase of search_replace_dict: the loop above,
run over the items of the caller-supplied dict, mutating that dict. -/
def search_replace_dict_normalize (d : PyDict) : PyDict :=
  d.foldl srd_step d

/-- An element of the markup tree as seen by _read_paragraphs: a w:p
paragraph element, a w:t text object (with an identity tag so that
structural equality coincides with Python object identity on trees whose
text objects carry distinct ids), or any other element. -/
inductive XNode where
  | p (children : List XNode)
  | t (id : Nat) (text : Option Str)
  | other (children : List XNode)
  deriving Repr

mutual
/-- Structural (= object) equality of tree nodes is decidable. -/
def xnode_deq : (a b : XNode) → Decidable (a = b)
  | .p as, .p bs =>
    match xnode_list_deq as bs with
    | isTrue h => isTrue (by rw [h])
    | isFalse h => isFalse (fun hh => h (by cases hh; rfl))
  | .p _, .t _ _ => isFalse (fun h => XNode.noConfusion h)
  | .p _, .other _ => isFalse (fun h => XNode.noConfusion h)
  | .t _ _, .p _ => isFalse (fun h => XNode.noConfusion h)
  | .t i1 t1, .t i2 t2 =>
    if h1 : i1 = i2 then
      if h2 : t1 = t2 then isTrue (by rw [h1, h2])
      else isFalse (fun hh => h2 (by cases hh; rfl))
    else isFalse (fun hh => h1 (by cases hh; rfl))
  | .t _ _, .other _ => isFalse (fun h => XNode.noConfusion h)
  | .other _, .p _ => isFalse (fun h => XNode.noConfusion h)
  | .other _, .t _ _ => isFalse (fun h => XNode.noConfusion h)
  | .other as, .other bs =>
    match xnode_list_deq as bs with
    | isTrue h => isTrue (by rw [h])
    | isFalse h => isFalse (fun hh => h (by cases hh; rfl))

/-- Helper of xnode_deq over child lists. -/
def xnode_list_deq : (as bs : List XNode) → Decidable (as = bs)
  | [], [] => isTrue rfl
  | [], _ :: _ => isFalse (fun h => List.noConfusion h)
  | _ :: _, [] => isFalse (fun h => List.noConfusion h)
  | a :: as, b :: bs =>
    match xnode_deq a b with
    | isTrue h1 =>
      match xnode_list_deq as bs with
      | isTrue h2 => isTrue (by rw [h1, h2])
      | isFalse h2 => isFalse (fun h => h2 (by cases h; rfl))
    | isFalse h1 => isFalse (fun h => h1 (by cases h; rfl))
end

instance : DecidableEq XNode := xnode_deq

mutual
/-- Proper w:p descendants of a node in document order
(the xpath query .//w:p). -/
def desc_ps : XNode → List XNode
  | .p cs => desc_ps_list cs
  | .t _ _ => []
  | .other cs => desc_ps_list cs

/-- Helper of desc_ps over child lists: each child contributes itself
when it is a w:p, followed by its own proper w:p descendants. -/
def desc_ps_list : List XNode → List XNode
  | [] => []
  | c :: rest =>
    (match c with
     | .p cs => [XNode.p cs]
     | _ => []) ++ desc_ps c ++ desc_ps_list rest
end

mutual
/-- Proper w:t descendants of a node in document order
(the xpath query .//w:t). -/
def desc_ts : XNode → List XNode
  | .p cs => desc_ts_list cs
  | .t _ _ => []
  | .other cs => desc_ts_list cs

/-- Helper of desc_ts over child lists: each child contributes itself
when it is a w:t, followed by its own proper w:t descendants. -/
def desc_ts_list : List XNode → List XNode
  | [] => []
  | c :: rest =>
    (match c with
     | .t i tx => [XNode.t i tx]
     | _ => []) ++ desc_ts c ++ desc_ts_list rest
end

/-- Python list removal during a for loop: the iterator advances by
index after every body, so when the body removes the current element the
element sliding into its place is skipped.  The loop runs at most
length - i body steps (the index grows by one each step and the list
never grows), so that count is carried as explicit fuel. -/
def remove_iter_go (pred : XNode → Bool) : Nat → List XNode → Nat → List XNode
  | 0, l, _ => l
  | fuel + 1, l, i =>
    match l.get? i with
    | none => l
    | some x =>
      if pred x then remove_iter_go pred fuel (l.erase x) (i + 1)
      else remove_iter_go pred fuel l (i + 1)

/-- The removal loop started on list `l` at index `i`. -/
def remove_in_iteration (pred : XNode → Bool) (l : List XNode) (i : Nat) : List XNode :=
  remove_iter_go pred (l.length - i) l i

/-- Does this w:t object (a descendant of paragraph `par`) have a nested
paragraph of `par` as its nearest paragraph ancestor?  This denotes
`nearest_paragraph_parent(obj) != par`: it holds exactly when the object
is a w:t descendant of some w:p descendant of `par`. -/
def belongs_to_subparagraph (par : XNode) (obj : XNode) : Bool :=
  (desc_ps par).any (fun sp => decide (obj ∈ desc_ts sp))

/-- Is this a w:t node whose text attribute is None? -/
def is_textless : XNode → Bool
  | .t _ none => true
  | _ => false

/-- text_objects_in_paragraph from the source: all w:t descendants, with
the removal loop dropping objects belonging to a sub-paragraph and
objects with no text (a removal during iteration skips the next item,
exactly as Python's list iterator does). -/
def text_objects_in_paragraph (par : XNode) : List XNode :=
  remove_in_iteration
    (fun obj => belongs_to_subparagraph par obj || is_textless obj)
    (desc_ts par) 0

/-- The paragraph-flattening loop of _read_paragraphs: paragraphs whose
w:t objects all live in sub-paragraphs are removed from the list (again
with Python removal-during-iteration semantics), and all sub-paragraphs
are accumulated in to_add. -/
def read_pars_go : Nat → List XNode → List XNode → Nat → List XNode × List XNode
  | 0, pars, to_add, _ => (pars, to_add)
  | fuel + 1, pars, to_add, i =>
    match pars.get? i with
    | none => (pars, to_add)
    | some par =>
      let subpars := desc_ps par
      if subpars.length > 0 then
        let n_texts := (desc_ts par).length
        let to_add1 := to_add ++ subpars
        let n_texts_in_subpars := (subpars.map (fun sp => (desc_ts sp).length)).sum
        if n_texts_in_subpars == n_texts then
          read_pars_go fuel (pars.erase par) to_add1 (i + 1)
        else read_pars_go fuel pars to_add1 (i + 1)
      else read_pars_go fuel pars to_add (i + 1)

/-- The paragraph fix-up loop started on `pars` at index `i` (the index
grows by one each step and the list never grows, so length - i body
steps are enough fuel). -/
def read_pars_loop (pars : List XNode) (to_add : List XNode) (i : Nat) :
    List XNode × List XNode :=
  read_pars_go (pars.length - i) pars to_add i

/-- Key collapsing of the OrderedDict keyed by paragraph objects:
duplicate keys keep their first position. -/
def dedup_keys (l : List XNode) : List XNode :=
  l.foldl (fun acc p => if p ∈ acc then acc else acc ++ [p]) []

/-- _read_paragraphs from the source: gather every w:p descendant of the
document root, fix up nested paragraphs, and map each paragraph of the
final flattened set to its own text objects. -/
def read_paragraphs (root : XNode) : List (XNode × List XNode) :=
  let paragraphs := desc_ps root
  let (pars1, to_add) := read_pars_loop paragraphs [] 0
  let pars2 := if to_add.length > 0 then pars1 ++ to_add else pars1
  (dedup_keys pars2).map (fun par => (par, text_objects_in_paragraph par))

/-! ### Derived notions and concrete documents used in the theorems -/

/-- Folding replace_match over a list of match descriptors, keeping the
document state (replace_all ignores the per-match changed flag when
accumulating the state). -/
def apply_matches (st : DocState) (f : ReplaceFunc) (l : List MatchD) : DocState :=
  l.foldl (fun s mm => (replace_match s mm f).1) st

/-- The sequence of hyperlink rIds met while walking the given text
objects in order: each object with a singleton hyperlink rId list
contributes that rId (objects with no hyperlink ancestor, or one with a
rId list of another length, contribute nothing). -/
def walk_rids (frags : List Fragment) (objs : List Nat) : List Str :=
  objs.filterMap (fun o =>
    match frag_hyper frags o with
    | some ids => if ids.length == 1 then some (ids.headD []) else none
    | none => none)

/-- A one-object paragraph whose text is ab. -/
def frags_ab : List Fragment := [⟨some ('a' :: 'b' :: []), none⟩]

/-- The match descriptor produced for the engine match a on frags_ab. -/
def match_ab_a : MatchD :=
  ⟨'a' :: [], 0 :: [], 0, 0, [], some ('a' :: 'b' :: [])⟩

/-- A three-object paragraph with texts Hel, lo Wo and rld. -/
def frags_hello : List Fragment :=
  [⟨some ('H' :: 'e' :: 'l' :: []), none⟩,
   ⟨some ('l' :: 'o' :: ' ' :: 'W' :: 'o' :: []), none⟩,
   ⟨some ('r' :: 'l' :: 'd' :: []), none⟩]

/-- The engine match of the pattern lo Wo on the text Hello World. -/
def re_loWo : ReMatch := ⟨3, 8, 'l' :: 'o' :: ' ' :: 'W' :: 'o' :: []⟩

/-- The match descriptor produced for re_loWo on frags_hello. -/
def match_loWo : MatchD :=
  ⟨'l' :: 'o' :: ' ' :: 'W' :: 'o' :: [], 1 :: [], 0, 4, [],
   some ('H' :: 'e' :: 'l' :: 'l' :: 'o' :: ' ' :: 'W' :: 'o' :: 'r' :: 'l' :: 'd' :: [])⟩

/-- A modifier that widens any span to the map positions 0 through 1,
the way expand_matches or match_whole_paragraphs can grow a span. -/
def grow_modifier : Modifier := fun _ _ _ _ => (0, 1)

/-- A pattern engine that reports one zero-width match at the very end
of the searched text, as a pattern like an empty alternative can. -/
def tail_pattern : Pattern := fun txt => [⟨txt.length, txt.length, []⟩]

/-- A one-object paragraph whose object carries one hyperlink rId r1. -/
def frags_hl : List Fragment :=
  [⟨some ('x' :: []), some (('r' :: '1' :: []) :: [])⟩]

/-- A relation dictionary resolving r1. -/
def rels_hl : List (Str × Str) :=
  [(('r' :: '1' :: []), ('u' :: 'r' :: 'l' :: []))]

/-- w:t nodes of the nested-paragraph document: t0 with text a, t1 with
text b, t2 with text c. -/
def xml_t0 : XNode := .t 0 (some ('a' :: []))

/-- Second text node of the nested-paragraph document. -/
def xml_t1 : XNode := .t 1 (some ('b' :: []))

/-- Third text node of the nested-paragraph document. -/
def xml_t2 : XNode := .t 2 (some ('c' :: []))

/-- The inner w:p of the nested-paragraph document, holding t1 and t2. -/
def xml_inner : XNode := .p [xml_t1, xml_t2]

/-- The outer w:p, holding t0 and the nested paragraph. -/
def xml_outer : XNode := .p [xml_t0, xml_inner]

/-- A document body with one top-level paragraph containing a nested
sub-paragraph with two w:t children. -/
def xml_doc : XNode := .other [xml_outer]

/-- A search-replace dictionary with one raw-string key. -/
def dict_ab : PyDict := [(SKey.str ('a' :: []), PyRepl.lit ('b' :: []))]

/-! ### Structural lemmas about the character map -/

theorem objects_to_text_cons (f : Fragment) (rest : List Fragment) :
    objects_to_text (f :: rest) = f.text.getD [] ++ objects_to_text rest := by
  cases h : f.text <;> simp [objects_to_text, h, Option.getD]

theorem objects_to_text_append (A B : List Fragment) :
    objects_to_text (A ++ B) = objects_to_text A ++ objects_to_text B := by
  induction A with
  | nil => simp [objects_to_text]
  | cons f rest ih =>
    simp [objects_to_text_cons, ih, List.append_assoc]

theorem entries_of_length (j : Nat) (i : Nat) (s : Str) :
    (entries_of j i s).length = s.length := by
  induction s generalizing i with
  | nil => rfl
  | cons c cs ih => simp [entries_of, ih]

theorem entries_of_map_char (j : Nat) (i : Nat) (s : Str) :
    (entries_of j i s).map (fun t => t.char) = s := by
  induction s generalizing i with
  | nil => rfl
  | cons c cs ih => simp [entries_of, ih]

theorem entries_of_obj (j : Nat) (i : Nat) (s : Str) :
    ∀ en ∈ entries_of j i s, en.obj = j := by
  induction s generalizing i with
  | nil => intro en h; cases h
  | cons c cs ih =>
    intro en h
    rcases List.mem_cons.mp h with h | h
    · subst h; rfl
    · exact ih (i + 1) en h

theorem entries_of_drop (j : Nat) (i k : Nat) (s : Str) :
    (entries_of j i s).drop k = entries_of j (i + k) (s.drop k) := by
  induction s generalizing i k with
  | nil => simp [entries_of]
  | cons c cs ih =>
    cases k with
    | zero => simp [entries_of]
    | succ k =>
      simp only [entries_of, List.drop_succ_cons, List.drop]
      rw [ih (i + 1) k]
      congr 1
      omega

theorem entries_of_take (j : Nat) (i k : Nat) (s : Str) :
    (entries_of j i s).take k = entries_of j i (s.take k) := by
  induction s generalizing i k with
  | nil => simp [entries_of]
  | cons c cs ih =>
    cases k with
    | zero => simp [entries_of]
    | succ k => simp [entries_of, ih]

theorem entries_of_get? (j : Nat) (i k : Nat) (s : Str) :
    k < s.length → (entries_of j i s).get? k = some ⟨s.getD k ' ', j, i + k⟩ := by
  induction s generalizing i k with
  | nil => intro h; simp at h
  | cons c cs ih =>
    intro h
    cases k with
    | zero => simp [entries_of]
    | succ k =>
      simp only [entries_of, List.get?]
      rw [ih (i + 1) k (by simpa using h)]
      simp only [List.getD, List.get?]
      congr 2
      omega

theorem build_aux_append (j : Nat) (A B : List Fragment) :
    build_aux j (A ++ B) = build_aux j A ++ build_aux (j + A.length) B := by
  induction A generalizing j with
  | nil => simp [build_aux]
  | cons f rest ih =>
    have harith : j + 1 + rest.length = j + (rest.length + 1) := by omega
    cases h : f.text with
    | none =>
      simp only [List.cons_append, build_aux, h, List.length_cons]
      rw [show rest.append B = rest ++ B from rfl, ih, harith]
    | some s =>
      simp only [List.cons_append, build_aux, h, List.length_cons]
      rw [show rest.append B = rest ++ B from rfl, ih, harith, List.append_assoc]

theorem build_aux_map_char (j : Nat) (frags : List Fragment) :
    (build_aux j frags).map (fun t => t.char) = objects_to_text frags := by
  induction frags generalizing j with
  | nil => rfl
  | cons f rest ih =>
    cases h : f.text with
    | none => simp [build_aux, h, ih, objects_to_text]
    | some s => simp [build_aux, h, ih, objects_to_text, entries_of_map_char]

theorem build_aux_length (j : Nat) (frags : List Fragment) :
    (build_aux j frags).length = (objects_to_text frags).length := by
  have := congrArg List.length (build_aux_map_char j frags)
  simpa using this

theorem build_aux_obj_bounds (j : Nat) (frags : List Fragment) :
    ∀ en ∈ build_aux j frags, j ≤ en.obj ∧ en.obj < j + frags.length := by
  induction frags generalizing j with
  | nil => intro en h; cases h
  | cons f rest ih =>
    intro en h
    simp only [List.length_cons]
    cases ht : f.text with
    | none =>
      rw [build_aux, ht] at h
      obtain ⟨h1, h2⟩ := ih (j + 1) en h
      omega
    | some s =>
      rw [build_aux, ht] at h
      rcases List.mem_append.mp h with h | h
      · have := entries_of_obj j 0 s en h
        omega
      · obtain ⟨h1, h2⟩ := ih (j + 1) en h
        omega

/-- Claim C2 helper: the full-range extraction is all characters. -/
theorem text_from_txt_map_full (m : List TMEntry) :
    text_from_txt_map 0 (m.length - 1) m = m.map (fun t => t.char) := by
  cases m with
  | nil => rfl
  | cons a l =>
    simp only [text_from_txt_map, List.drop_zero, List.length_cons]
    have : l.length + 1 - 1 + 1 - 0 = l.length + 1 := by omega
    rw [this, List.take_of_length_le (by simp)]

/-- C2.  The concatenation of the characters of the map built by
find_matches equals the concatenation of the texts of the text-bearing
fragments, in order and with no separator; equivalently, extracting the
full index range from the character map yields the flattened search
text. -/
theorem txt_map_is_flattened_text (frags : List Fragment) :
    (build_txt_map frags).map (fun t => t.char) = objects_to_text frags ∧
    text_from_txt_map 0 ((build_txt_map frags).length - 1) (build_txt_map frags)
      = objects_to_text frags := by
  refine ⟨build_aux_map_char 0 frags, ?_⟩
  rw [text_from_txt_map_full]
  exact build_aux_map_char 0 frags


/-! ### Lemmas about fragment access, update and the deletion fold -/

theorem frag_text_cons_succ (F : Fragment) (rest : List Fragment) (n : Nat) :
    frag_text (F :: rest) (n + 1) = frag_text rest n := rfl

theorem frag_text_cons_zero (F : Fragment) (rest : List Fragment) :
    frag_text (F :: rest) 0 = F.text := rfl

theorem set_frag_text_cons_succ (F : Fragment) (rest : List Fragment) (n : Nat) (t : Option Str) :
    set_frag_text (F :: rest) (n + 1) t = F :: set_frag_text rest n t := by
  unfold set_frag_text
  cases h : rest[n]? with
  | none => simp [List.get?_eq_getElem?, h]
  | some f => simp [List.get?_eq_getElem?, h]

theorem set_frag_text_cons_zero (F : Fragment) (rest : List Fragment) (t : Option Str) :
    set_frag_text (F :: rest) 0 t = { F with text := t } :: rest := by
  simp [set_frag_text, List.get?]

theorem ins_at_cons_succ (F : Fragment) (rest : List Fragment) (p : Nat) (r : Str) (idx : Nat) :
    ins_at (F :: rest) (p + 1) r idx = F :: ins_at rest p r idx := by
  simp [ins_at, frag_text_cons_succ, set_frag_text_cons_succ]

theorem ins_at_cons_zero (F : Fragment) (rest : List Fragment) (r : Str) (idx : Nat) :
    ins_at (F :: rest) 0 r idx
      = { F with text := some (insert_str (F.text.getD []) r idx) } :: rest := by
  simp [ins_at, frag_text_cons_zero, set_frag_text_cons_zero]

theorem del_step_cons (stp edp fo lo off : Nat) (F : Fragment) (rest : List Fragment)
    (o : Nat) (h : off < o) :
    del_step stp edp fo lo off (F :: rest) o
      = F :: del_step stp edp fo lo (off + 1) rest o := by
  have h1 : o - off = (o - (off + 1)) + 1 := by omega
  by_cases hfo : (o == fo) <;> by_cases hlo : (o == lo) <;>
    simp [del_step, h1, frag_text_cons_succ, set_frag_text_cons_succ, hfo, hlo] <;>
    split <;> rfl

theorem del_step_mid_zero (stp edp fo lo j : Nat) (F : Fragment) (rest : List Fragment)
    (hfo : j ≠ fo) (hlo : j ≠ lo) :
    del_step stp edp fo lo j (F :: rest) j = { F with text := some [] } :: rest := by
  have h1 : (j == fo) = false := beq_eq_false_iff_ne.mpr hfo
  have h2 : (j == lo) = false := beq_eq_false_iff_ne.mpr hlo
  simp [del_step, h1, h2, hfo, hlo, Nat.sub_self, frag_text_cons_zero, set_frag_text_cons_zero]

theorem del_step_lastonly_zero (stp edp fo j : Nat) (F : Fragment) (rest : List Fragment)
    (hfo : j ≠ fo) :
    del_step stp edp fo j j (F :: rest) j
      = { F with text := some ((F.text.getD []).drop (edp + 1)) } :: rest := by
  have h1 : (j == fo) = false := beq_eq_false_iff_ne.mpr hfo
  simp [del_step, h1, hfo, Nat.sub_self, frag_text_cons_zero, set_frag_text_cons_zero]

theorem del_step_firstonly_zero (stp edp lo j : Nat) (F : Fragment) (rest : List Fragment)
    (hlo : j ≠ lo) :
    del_step stp edp j lo j (F :: rest) j
      = { F with text := some ((F.text.getD []).take stp) } :: rest := by
  have h2 : (j == lo) = false := beq_eq_false_iff_ne.mpr hlo
  simp [del_step, h2, hlo, Nat.sub_self, frag_text_cons_zero, set_frag_text_cons_zero]

theorem del_step_firstlast_zero (stp edp j : Nat) (F : Fragment) (rest : List Fragment) :
    del_step stp edp j j j (F :: rest) j
      = { F with text := some ((F.text.getD []).take stp
          ++ (F.text.getD []).drop (edp + 1)) } :: rest := by
  simp [del_step, Nat.sub_self, frag_text_cons_zero, set_frag_text_cons_zero]

theorem upd_fold_nil (stp edp fo lo off : Nat) (frags : List Fragment) :
    upd_fold stp edp fo lo off frags [] = frags := rfl

theorem upd_fold_cons (stp edp fo lo off : Nat) (frags : List Fragment) (o : Nat)
    (os : List Nat) :
    upd_fold stp edp fo lo off frags (o :: os)
      = upd_fold stp edp fo lo off (del_step stp edp fo lo off frags o) os := rfl

theorem upd_fold_shift (stp edp fo lo off : Nat) (F : Fragment) (rest : List Fragment)
    (objs : List Nat) (h : ∀ o ∈ objs, off < o) :
    upd_fold stp edp fo lo off (F :: rest) objs
      = F :: upd_fold stp edp fo lo (off + 1) rest objs := by
  induction objs generalizing F rest with
  | nil => rfl
  | cons o os ih =>
    rw [upd_fold_cons, del_step_cons stp edp fo lo off F rest o (h o (by simp)),
      ih F (del_step stp edp fo lo (off + 1) rest o) (fun o' ho' => h o' (by simp [ho'])),
      upd_fold_cons]

/-! ### Lemmas about the de-duplicating object fold -/

theorem dedup_fold_mem_acc (l : List TMEntry) (acc : List Nat)
    (h : ∀ t ∈ l, t.obj ∈ acc) :
    l.foldl (fun objs t => if t.obj ∈ objs then objs else objs ++ [t.obj]) acc = acc := by
  induction l with
  | nil => rfl
  | cons t l' ih =>
    simp only [List.foldl_cons, if_pos (h t (by simp))]
    exact ih (fun t' ht' => h t' (by simp [ht']))

theorem dedup_fold_const (j : Nat) (l : List TMEntry) (hobj : ∀ t ∈ l, t.obj = j)
    (hne : l ≠ []) :
    l.foldl (fun objs t => if t.obj ∈ objs then objs else objs ++ [t.obj]) [] = [j] := by
  cases l with
  | nil => exact absurd rfl hne
  | cons t l' =>
    have h0 : ¬ (t.obj ∈ ([] : List Nat)) := by simp
    simp only [List.foldl_cons, if_neg h0, List.nil_append, hobj t (by simp)]
    exact dedup_fold_mem_acc l' [j] (fun t' ht' => by simp [hobj t' (by simp [ht'])])

theorem dedup_fold_cons_acc (l : List TMEntry) (x : Nat) (acc : List Nat)
    (h : ∀ t ∈ l, t.obj ≠ x) :
    l.foldl (fun objs t => if t.obj ∈ objs then objs else objs ++ [t.obj]) (x :: acc)
      = x :: l.foldl (fun objs t => if t.obj ∈ objs then objs else objs ++ [t.obj]) acc := by
  induction l generalizing acc with
  | nil => rfl
  | cons t l' ih =>
    have hx : t.obj ≠ x := h t (by simp)
    by_cases hm : t.obj ∈ acc
    · simp only [List.foldl_cons, List.mem_cons, if_pos (Or.inr hm), if_pos hm]
      exact ih acc (fun t' ht' => h t' (by simp [ht']))
    · have : ¬ t.obj ∈ x :: acc := by simp [hx, hm]
      simp only [List.foldl_cons, if_neg this, if_neg hm, List.cons_append]
      exact ih (acc ++ [t.obj]) (fun t' ht' => h t' (by simp [ht']))


/-! ### Lemmas about map entries at checked indices -/

theorem tm_get_append_left (block m2 : List TMEntry) (i : Nat) (h : i < block.length) :
    tm_get (block ++ m2) i = tm_get block i := by
  simp [tm_get, List.get?_eq_getElem?, List.getElem?_append_left h]

theorem tm_get_append_right (block m2 : List TMEntry) (i : Nat) (h : block.length ≤ i) :
    tm_get (block ++ m2) i = tm_get m2 (i - block.length) := by
  simp [tm_get, List.get?_eq_getElem?, List.getElem?_append_right h]

theorem tm_get_entries (j : Nat) (t : Str) (i : Nat) (h : i < t.length) :
    tm_get (entries_of j 0 t) i = ⟨t.getD i ' ', j, i⟩ := by
  rw [tm_get, entries_of_get? j 0 i t h]
  simp

/-! ### The deletion lemma for windows that start at the map origin -/

theorem objects_from_zero (e : Nat) (m : List TMEntry) :
    objects_from_txt_map 0 e m
      = (m.take (e + 1)).foldl
          (fun objs t => if t.obj ∈ objs then objs else objs ++ [t.obj]) [] := by
  simp [objects_from_txt_map]

/-- Deleting the window \[0, e\] of the map of `frags` (fragments living
at absolute object indices starting at `j`, first spanned object `fo`
outside this suffix), then inserting `r` at position 0 of the last
spanned object, leaves exactly `r` followed by the text after the
window.  Also characterizes the spanned-object list of such a window. -/
theorem del_prefix_window (frags : List Fragment) :
    ∀ (j e fo stp : Nat) (r : Str),
      fo < j →
      e < (build_aux j frags).length →
      objects_from_txt_map 0 e (build_aux j frags) ≠ [] ∧
      (objects_from_txt_map 0 e (build_aux j frags)).getLast?
        = some ((tm_get (build_aux j frags) e).obj) ∧
      (∀ o ∈ objects_from_txt_map 0 e (build_aux j frags),
        j ≤ o ∧ o < j + frags.length) ∧
      (objects_from_txt_map 0 e (build_aux j frags)).Nodup ∧
      objects_to_text
        (ins_at
          (upd_fold stp (tm_get (build_aux j frags) e).charpos fo
            (tm_get (build_aux j frags) e).obj j frags
            (objects_from_txt_map 0 e (build_aux j frags)))
          ((tm_get (build_aux j frags) e).obj - j) r 0)
        = r ++ ((build_aux j frags).drop (e + 1)).map (fun x => x.char) := by
  induction frags with
  | nil =>
    intro j e fo stp r hfo he
    simp [build_aux] at he
  | cons F rest ih =>
    intro j e fo stp r hfo he
    have hskip :
        build_aux j (F :: rest) = build_aux (j + 1) rest →
        F.text.getD [] = [] →
        objects_from_txt_map 0 e (build_aux j (F :: rest)) ≠ [] ∧
        (objects_from_txt_map 0 e (build_aux j (F :: rest))).getLast?
          = some ((tm_get (build_aux j (F :: rest)) e).obj) ∧
        (∀ o ∈ objects_from_txt_map 0 e (build_aux j (F :: rest)),
          j ≤ o ∧ o < j + (F :: rest).length) ∧
        (objects_from_txt_map 0 e (build_aux j (F :: rest))).Nodup ∧
        objects_to_text
          (ins_at
            (upd_fold stp (tm_get (build_aux j (F :: rest)) e).charpos fo
              (tm_get (build_aux j (F :: rest)) e).obj j (F :: rest)
              (objects_from_txt_map 0 e (build_aux j (F :: rest))))
            ((tm_get (build_aux j (F :: rest)) e).obj - j) r 0)
          = r ++ ((build_aux j (F :: rest)).drop (e + 1)).map (fun x => x.char) := by
      intro hmap hFnil
      rw [hmap] at he ⊢
      obtain ⟨h1, h2, h3, h4, h5⟩ := ih (j + 1) e fo stp r (by omega) he
      have hgt : ∀ o ∈ objects_from_txt_map 0 e (build_aux (j + 1) rest), j < o :=
        fun o ho => by have := (h3 o ho).1; omega
      have hlo_mem := List.mem_of_getLast?_eq_some h2
      have hlo_ge : j + 1 ≤ (tm_get (build_aux (j + 1) rest) e).obj := (h3 _ hlo_mem).1
      refine ⟨h1, h2, ?_, h4, ?_⟩
      · intro o ho
        have := h3 o ho
        simp only [List.length_cons]
        omega
      · rw [upd_fold_shift _ _ _ _ _ _ _ _ hgt]
        have hpos : (tm_get (build_aux (j + 1) rest) e).obj - j
            = ((tm_get (build_aux (j + 1) rest) e).obj - (j + 1)) + 1 := by omega
        rw [hpos, ins_at_cons_succ, objects_to_text_cons, hFnil, List.nil_append]
        exact h5
    cases hFt : F.text with
    | none =>
      exact hskip (by rw [build_aux, hFt]) (by rw [hFt]; rfl)
    | some t =>
      cases t with
      | nil =>
        exact hskip (by rw [build_aux, hFt]; simp [entries_of]) (by rw [hFt]; rfl)
      | cons c cs =>
        have hmap : build_aux j (F :: rest)
            = entries_of j 0 (c :: cs) ++ build_aux (j + 1) rest := by
          rw [build_aux, hFt]
        have hblen : (entries_of j 0 (c :: cs)).length = (c :: cs).length :=
          entries_of_length _ _ _
        have hm'gt : ∀ x ∈ build_aux (j + 1) rest, j < x.obj := fun x hx => by
          have := (build_aux_obj_bounds (j + 1) rest x hx).1; omega
        by_cases hbe : e < (c :: cs).length
        · -- the window lies inside the text of F
          have hwindow : (entries_of j 0 (c :: cs) ++ build_aux (j + 1) rest).take (e + 1)
              = entries_of j 0 ((c :: cs).take (e + 1)) := by
            rw [List.take_append_of_le_length (by rw [hblen]; omega), entries_of_take]
          have hwne : entries_of j 0 ((c :: cs).take (e + 1)) ≠ [] := by
            apply List.ne_nil_of_length_pos
            rw [entries_of_length, List.length_take]
            simp
          have hobjs : objects_from_txt_map 0 e (build_aux j (F :: rest)) = [j] := by
            rw [objects_from_zero, hmap, hwindow]
            exact dedup_fold_const j _ (entries_of_obj _ _ _) hwne
          have htm : tm_get (build_aux j (F :: rest)) e = ⟨(c :: cs).getD e ' ', j, e⟩ := by
            rw [hmap, tm_get_append_left _ _ _ (by rw [hblen]; omega), tm_get_entries _ _ _ hbe]
          have hjfo : (j == fo) = false := by
            rw [beq_eq_false_iff_ne]
            omega
          refine ⟨by rw [hobjs]; simp, by rw [hobjs, htm]; rfl, ?_, by rw [hobjs]; simp, ?_⟩
          · intro o ho
            rw [hobjs] at ho
            simp only [List.mem_singleton] at ho
            subst ho
            simp only [List.length_cons]
            omega
          · rw [hobjs, htm]
            have hdel : upd_fold stp e fo j j (F :: rest) [j]
                = { F with text := some ((c :: cs).drop (e + 1)) } :: rest := by
              simp [upd_fold, del_step, hjfo, Nat.sub_self, frag_text_cons_zero, hFt,
                set_frag_text_cons_zero]
            rw [hdel, Nat.sub_self, ins_at_cons_zero, objects_to_text_cons]
            have hdropR : (build_aux j (F :: rest)).drop (e + 1)
                = entries_of j (e + 1) ((c :: cs).drop (e + 1)) ++ build_aux (j + 1) rest := by
              rw [hmap, List.drop_append_eq_append_drop, entries_of_drop,
                show e + 1 - (entries_of j 0 (c :: cs)).length = 0 from by rw [hblen]; omega,
                List.drop_zero]
              simp
            rw [hdropR]
            simp [insert_str, entries_of_map_char, build_aux_map_char]
        · -- the window covers all of the text of F and reaches further
          have hble : (c :: cs).length ≤ e := by omega
          have harith : e + 1 - (entries_of j 0 (c :: cs)).length
              = (e - (c :: cs).length) + 1 := by
            rw [hblen]
            omega
          have hwindow : (entries_of j 0 (c :: cs) ++ build_aux (j + 1) rest).take (e + 1)
              = entries_of j 0 (c :: cs)
                ++ (build_aux (j + 1) rest).take ((e - (c :: cs).length) + 1) := by
            rw [List.take_append_eq_append_take, List.take_of_length_le (by rw [hblen]; omega),
              harith]
          have hBfold : (entries_of j 0 (c :: cs)).foldl
              (fun objs t => if t.obj ∈ objs then objs else objs ++ [t.obj]) [] = [j] := by
            apply dedup_fold_const j _ (entries_of_obj _ _ _)
            apply List.ne_nil_of_length_pos
            rw [entries_of_length]
            simp
          have hwne : ∀ x ∈ (build_aux (j + 1) rest).take ((e - (c :: cs).length) + 1),
              x.obj ≠ j := fun x hx => by
            have := hm'gt x (List.take_subset _ _ hx)
            omega
          have he' : e - (c :: cs).length < (build_aux (j + 1) rest).length := by
            rw [hmap, List.length_append, hblen] at he
            omega
          obtain ⟨h1, h2, h3, h4, h5⟩ := ih (j + 1) (e - (c :: cs).length) fo stp r (by omega) he'
          have hobjs : objects_from_txt_map 0 e (build_aux j (F :: rest))
              = j :: objects_from_txt_map 0 (e - (c :: cs).length) (build_aux (j + 1) rest) := by
            rw [objects_from_zero, hmap, hwindow, List.foldl_append, hBfold,
              dedup_fold_cons_acc _ _ _ hwne, objects_from_zero]
          have htm : tm_get (build_aux j (F :: rest)) e
              = tm_get (build_aux (j + 1) rest) (e - (c :: cs).length) := by
            rw [hmap, tm_get_append_right _ _ _ (by rw [hblen]; omega), hblen]
          have hlo_mem := List.mem_of_getLast?_eq_some h2
          have hlo_ge : j + 1 ≤ (tm_get (build_aux (j + 1) rest) (e - (c :: cs).length)).obj :=
            (h3 _ hlo_mem).1
          have hjfo : (j == fo) = false := by
            rw [beq_eq_false_iff_ne]
            omega
          have hjlo : (j == (tm_get (build_aux (j + 1) rest) (e - (c :: cs).length)).obj)
              = false := by
            rw [beq_eq_false_iff_ne]
            omega
          refine ⟨?_, ?_, ?_, ?_, ?_⟩
          · rw [hobjs]; simp
          · rw [hobjs, htm]
            rcases hoc : objects_from_txt_map 0 (e - (c :: cs).length) (build_aux (j + 1) rest)
              with _ | ⟨x, xs⟩
            · exact absurd hoc h1
            · rw [hoc] at h2
              simpa using h2
          · intro o ho
            rw [hobjs] at ho
            simp only [List.length_cons]
            rcases List.mem_cons.mp ho with ho | ho
            · omega
            · have := h3 o ho
              omega
          · rw [hobjs]
            refine List.nodup_cons.mpr ⟨fun hj => ?_, h4⟩
            · have := (h3 j hj).1
              omega
          · rw [hobjs, htm]
            rw [upd_fold_cons]
            rw [del_step_mid_zero _ _ _ _ _ _ _ (by omega) (by omega)]
            rw [upd_fold_shift _ _ _ _ _ _ _ _
              (fun o ho => by have := (h3 o ho).1; omega)]
            have hpos : (tm_get (build_aux (j + 1) rest) (e - (c :: cs).length)).obj - j
                = ((tm_get (build_aux (j + 1) rest) (e - (c :: cs).length)).obj - (j + 1)) + 1 := by
              omega
            rw [hpos, ins_at_cons_succ, objects_to_text_cons]
            have hdropR : (build_aux j (F :: rest)).drop (e + 1)
                = (build_aux (j + 1) rest).drop ((e - (c :: cs).length) + 1) := by
              rw [hmap, List.drop_append_eq_append_drop,
                List.drop_eq_nil_of_le (by rw [hblen]; omega), List.nil_append, harith]
            rw [hdropR]
            simpa using h5


/-! ### The main deletion/insertion lemma for arbitrary windows -/

theorem objects_window_skip (block m2 : List TMEntry) (s e : Nat)
    (hb : block.length ≤ s) (hse : s ≤ e) :
    objects_from_txt_map s e (block ++ m2)
      = objects_from_txt_map (s - block.length) (e - block.length) m2 := by
  have h1 : e + 1 - s = (e - block.length) + 1 - (s - block.length) := by omega
  unfold objects_from_txt_map
  rw [List.drop_append_eq_append_drop, List.drop_eq_nil_of_le hb, List.nil_append, h1]

theorem insert_str_between (a b2 r : Str) :
    insert_str (a ++ b2) r a.length = a ++ r ++ b2 := by
  simp [insert_str, List.take_append_eq_append_take, List.drop_append_eq_append_drop,
    Nat.sub_self, List.take_length, List.drop_length]

theorem insert_str_take_drop (t r : Str) (s k : Nat) (h : s ≤ t.length) :
    insert_str (t.take s ++ t.drop k) r s = t.take s ++ r ++ t.drop k := by
  have hlen : (t.take s).length = s := by
    rw [List.length_take]
    omega
  calc insert_str (t.take s ++ t.drop k) r s
      = insert_str (t.take s ++ t.drop k) r (t.take s).length := by rw [hlen]
    _ = t.take s ++ r ++ t.drop k := insert_str_between _ _ _

theorem mk_text_getD (F : Fragment) (x : Str) :
    ({ F with text := some x } : Fragment).text.getD [] = x := rfl

theorem mk_text_getD_opt (F : Fragment) (x : Option Str) :
    ({ F with text := x } : Fragment).text = x := rfl

/-- Main lemma for replace_match on a descriptor of the window \[s, e\]
of the character map of `frags` (fragments at absolute indices starting
at `j`): characterizes the spanned-object list (nonempty, head and last,
bounds, no duplicates), the validity of the recorded start position, and
the concatenated text after deletion plus insertion of `r`. -/
theorem replace_window (frags : List Fragment) :
    ∀ (j s e : Nat) (r : Str),
      s ≤ e →
      e < (build_aux j frags).length →
      objects_from_txt_map s e (build_aux j frags) ≠ [] ∧
      (objects_from_txt_map s e (build_aux j frags)).head?
        = some ((tm_get (build_aux j frags) s).obj) ∧
      (objects_from_txt_map s e (build_aux j frags)).getLast?
        = some ((tm_get (build_aux j frags) e).obj) ∧
      (∀ o ∈ objects_from_txt_map s e (build_aux j frags),
        j ≤ o ∧ o < j + frags.length) ∧
      (objects_from_txt_map s e (build_aux j frags)).Nodup ∧
      (tm_get (build_aux j frags) s).charpos
        < ((frag_text frags ((tm_get (build_aux j frags) s).obj - j)).getD []).length ∧
      objects_to_text
        (ins_at
          (upd_fold (tm_get (build_aux j frags) s).charpos
            (tm_get (build_aux j frags) e).charpos
            (tm_get (build_aux j frags) s).obj
            (tm_get (build_aux j frags) e).obj j frags
            (objects_from_txt_map s e (build_aux j frags)))
          ((tm_get (build_aux j frags) e).obj - j) r
          (if (tm_get (build_aux j frags) s).obj = (tm_get (build_aux j frags) e).obj
            then (tm_get (build_aux j frags) s).charpos else 0))
        = ((build_aux j frags).take s).map (fun x => x.char) ++ r
          ++ ((build_aux j frags).drop (e + 1)).map (fun x => x.char) := by
  induction frags with
  | nil =>
    intro j s e r hse he
    simp [build_aux] at he
  | cons F rest ih =>
    intro j s e r hse he
    have hskip :
        build_aux j (F :: rest) = build_aux (j + 1) rest →
        F.text.getD [] = [] →
        objects_from_txt_map s e (build_aux j (F :: rest)) ≠ [] ∧
        (objects_from_txt_map s e (build_aux j (F :: rest))).head?
          = some ((tm_get (build_aux j (F :: rest)) s).obj) ∧
        (objects_from_txt_map s e (build_aux j (F :: rest))).getLast?
          = some ((tm_get (build_aux j (F :: rest)) e).obj) ∧
        (∀ o ∈ objects_from_txt_map s e (build_aux j (F :: rest)),
          j ≤ o ∧ o < j + (F :: rest).length) ∧
        (objects_from_txt_map s e (build_aux j (F :: rest))).Nodup ∧
        (tm_get (build_aux j (F :: rest)) s).charpos
          < ((frag_text (F :: rest)
              ((tm_get (build_aux j (F :: rest)) s).obj - j)).getD []).length ∧
        objects_to_text
          (ins_at
            (upd_fold (tm_get (build_aux j (F :: rest)) s).charpos
              (tm_get (build_aux j (F :: rest)) e).charpos
              (tm_get (build_aux j (F :: rest)) s).obj
              (tm_get (build_aux j (F :: rest)) e).obj j (F :: rest)
              (objects_from_txt_map s e (build_aux j (F :: rest))))
            ((tm_get (build_aux j (F :: rest)) e).obj - j) r
            (if (tm_get (build_aux j (F :: rest)) s).obj
                = (tm_get (build_aux j (F :: rest)) e).obj
              then (tm_get (build_aux j (F :: rest)) s).charpos else 0))
          = ((build_aux j (F :: rest)).take s).map (fun x => x.char) ++ r
            ++ ((build_aux j (F :: rest)).drop (e + 1)).map (fun x => x.char) := by
      intro hmap hFnil
      rw [hmap] at he ⊢
      obtain ⟨h1, h2, h3, h4, h5, h6, h7⟩ := ih (j + 1) s e r hse he
      have hgt : ∀ o ∈ objects_from_txt_map s e (build_aux (j + 1) rest), j < o :=
        fun o ho => by have := (h4 o ho).1; omega
      have hfo_mem : (tm_get (build_aux (j + 1) rest) s).obj
          ∈ objects_from_txt_map s e (build_aux (j + 1) rest) :=
        List.mem_of_mem_head? (Option.mem_def.mpr h2)
      have hlo_mem := List.mem_of_getLast?_eq_some h3
      have hfo_ge : j + 1 ≤ (tm_get (build_aux (j + 1) rest) s).obj := (h4 _ hfo_mem).1
      have hlo_ge : j + 1 ≤ (tm_get (build_aux (j + 1) rest) e).obj := (h4 _ hlo_mem).1
      refine ⟨h1, h2, h3, ?_, h5, ?_, ?_⟩
      · intro o ho
        have := h4 o ho
        simp only [List.length_cons]
        omega
      · have hpos : (tm_get (build_aux (j + 1) rest) s).obj - j
            = ((tm_get (build_aux (j + 1) rest) s).obj - (j + 1)) + 1 := by omega
        rw [hpos, frag_text_cons_succ]
        exact h6
      · rw [upd_fold_shift _ _ _ _ _ _ _ _ hgt]
        have hpos : (tm_get (build_aux (j + 1) rest) e).obj - j
            = ((tm_get (build_aux (j + 1) rest) e).obj - (j + 1)) + 1 := by omega
        rw [hpos, ins_at_cons_succ, objects_to_text_cons, hFnil, List.nil_append]
        exact h7
    cases hFt : F.text with
    | none =>
      exact hskip (by rw [build_aux, hFt]) (by rw [hFt]; rfl)
    | some t =>
      cases t with
      | nil =>
        exact hskip (by rw [build_aux, hFt]; simp [entries_of]) (by rw [hFt]; rfl)
      | cons c cs =>
        have hmap : build_aux j (F :: rest)
            = entries_of j 0 (c :: cs) ++ build_aux (j + 1) rest := by
          rw [build_aux, hFt]
        have hblen : (entries_of j 0 (c :: cs)).length = (c :: cs).length :=
          entries_of_length _ _ _
        have hm'gt : ∀ x ∈ build_aux (j + 1) rest, j < x.obj := fun x hx => by
          have := (build_aux_obj_bounds (j + 1) rest x hx).1; omega
        by_cases hsb : s < (c :: cs).length
        · by_cases hbe : e < (c :: cs).length
          · -- the whole window lies inside the text of F
            have hdrop1 : (build_aux j (F :: rest)).drop s
                = entries_of j s ((c :: cs).drop s) ++ build_aux (j + 1) rest := by
              rw [hmap, List.drop_append_eq_append_drop,
                show s - (entries_of j 0 (c :: cs)).length = 0 from by rw [hblen]; omega,
                List.drop_zero, entries_of_drop]
              simp
            have hwindow : ((build_aux j (F :: rest)).drop s).take (e + 1 - s)
                = entries_of j s (((c :: cs).drop s).take (e + 1 - s)) := by
              rw [hdrop1, List.take_append_of_le_length
                (by rw [entries_of_length, List.length_drop]; omega), entries_of_take]
            have hwne : entries_of j s (((c :: cs).drop s).take (e + 1 - s)) ≠ [] := by
              apply List.ne_nil_of_length_pos
              rw [entries_of_length, List.length_take, List.length_drop]
              omega
            have hobjs : objects_from_txt_map s e (build_aux j (F :: rest)) = [j] := by
              rw [objects_from_txt_map, hwindow]
              exact dedup_fold_const j _ (entries_of_obj _ _ _) hwne
            have htms : tm_get (build_aux j (F :: rest)) s
                = ⟨(c :: cs).getD s ' ', j, s⟩ := by
              rw [hmap, tm_get_append_left _ _ _ (by rw [hblen]; omega),
                tm_get_entries _ _ _ hsb]
            have htme : tm_get (build_aux j (F :: rest)) e
                = ⟨(c :: cs).getD e ' ', j, e⟩ := by
              rw [hmap, tm_get_append_left _ _ _ (by rw [hblen]; omega),
                tm_get_entries _ _ _ hbe]
            refine ⟨by rw [hobjs]; simp, by rw [hobjs, htms]; rfl,
              by rw [hobjs, htme]; rfl, ?_, by rw [hobjs]; simp, ?_, ?_⟩
            · intro o ho
              rw [hobjs] at ho
              simp only [List.mem_singleton] at ho
              subst ho
              simp only [List.length_cons]
              omega
            · rw [htms]
              simp only [Nat.sub_self, frag_text_cons_zero, hFt, Option.getD_some]
              exact hsb
            · rw [hobjs, htms, htme]
              simp only [Nat.sub_self, if_pos rfl]
              have hdel : upd_fold s e j j j (F :: rest) [j]
                  = { F with text := some ((c :: cs).take s ++ (c :: cs).drop (e + 1)) }
                    :: rest := by
                rw [upd_fold_cons, del_step_firstlast_zero, upd_fold_nil, hFt]
                simp only [Option.getD_some]
              rw [hdel, ins_at_cons_zero]
              simp only [mk_text_getD, Option.getD_some, if_true]
              rw [insert_str_take_drop _ _ _ _ (Nat.le_of_lt hsb), objects_to_text_cons]
              simp only [mk_text_getD, Option.getD_some]
              have htake : (build_aux j (F :: rest)).take s
                  = entries_of j 0 ((c :: cs).take s) := by
                rw [hmap, List.take_append_of_le_length (by rw [hblen]; omega),
                  entries_of_take]
              have hdropR : (build_aux j (F :: rest)).drop (e + 1)
                  = entries_of j (e + 1) ((c :: cs).drop (e + 1))
                    ++ build_aux (j + 1) rest := by
                rw [hmap, List.drop_append_eq_append_drop, entries_of_drop,
                  show e + 1 - (entries_of j 0 (c :: cs)).length = 0 from
                    by rw [hblen]; omega,
                  List.drop_zero]
                simp
              rw [htake, hdropR]
              simp [entries_of_map_char, build_aux_map_char, List.map_append]
          · -- the window starts inside the text of F and reaches further
            have hble : (c :: cs).length ≤ e := by omega
            have hdrop1 : (build_aux j (F :: rest)).drop s
                = entries_of j s ((c :: cs).drop s) ++ build_aux (j + 1) rest := by
              rw [hmap, List.drop_append_eq_append_drop,
                show s - (entries_of j 0 (c :: cs)).length = 0 from by rw [hblen]; omega,
                List.drop_zero, entries_of_drop]
              simp
            have hwindow : ((build_aux j (F :: rest)).drop s).take (e + 1 - s)
                = entries_of j s ((c :: cs).drop s)
                  ++ (build_aux (j + 1) rest).take ((e - (c :: cs).length) + 1) := by
              rw [hdrop1, List.take_append_eq_append_take,
                List.take_of_length_le
                  (by rw [entries_of_length, List.length_drop]; omega)]
              congr 2
              rw [entries_of_length, List.length_drop]
              omega
            have hBne : entries_of j s ((c :: cs).drop s) ≠ [] := by
              apply List.ne_nil_of_length_pos
              rw [entries_of_length, List.length_drop]
              omega
            have hBfold : (entries_of j s ((c :: cs).drop s)).foldl
                (fun objs t => if t.obj ∈ objs then objs else objs ++ [t.obj]) [] = [j] :=
              dedup_fold_const j _ (entries_of_obj _ _ _) hBne
            have hwne : ∀ x ∈ (build_aux (j + 1) rest).take ((e - (c :: cs).length) + 1),
                x.obj ≠ j := fun x hx => by
              have := hm'gt x (List.take_subset _ _ hx)
              omega
            have he' : e - (c :: cs).length < (build_aux (j + 1) rest).length := by
              rw [hmap, List.length_append, hblen] at he
              omega
            obtain ⟨h1, h2, h3, h4, h5⟩ :=
              del_prefix_window rest (j + 1) (e - (c :: cs).length) j s r (by omega) he'
            have hobjs : objects_from_txt_map s e (build_aux j (F :: rest))
                = j :: objects_from_txt_map 0 (e - (c :: cs).length)
                    (build_aux (j + 1) rest) := by
              rw [objects_from_txt_map, hwindow, List.foldl_append, hBfold,
                dedup_fold_cons_acc _ _ _ hwne, objects_from_zero]
            have htms : tm_get (build_aux j (F :: rest)) s
                = ⟨(c :: cs).getD s ' ', j, s⟩ := by
              rw [hmap, tm_get_append_left _ _ _ (by rw [hblen]; omega),
                tm_get_entries _ _ _ hsb]
            have htme : tm_get (build_aux j (F :: rest)) e
                = tm_get (build_aux (j + 1) rest) (e - (c :: cs).length) := by
              rw [hmap, tm_get_append_right _ _ _ (by rw [hblen]; omega), hblen]
            have hlo_mem := List.mem_of_getLast?_eq_some h2
            have hlo_ge : j + 1
                ≤ (tm_get (build_aux (j + 1) rest) (e - (c :: cs).length)).obj :=
              (h3 _ hlo_mem).1
            refine ⟨?_, ?_, ?_, ?_, ?_, ?_, ?_⟩
            · rw [hobjs]; simp
            · rw [hobjs, htms]; rfl
            · rw [hobjs, htme]
              rcases hoc : objects_from_txt_map 0 (e - (c :: cs).length)
                  (build_aux (j + 1) rest) with _ | ⟨x, xs⟩
              · exact absurd hoc h1
              · rw [hoc] at h2
                simpa using h2
            · intro o ho
              rw [hobjs] at ho
              simp only [List.length_cons]
              rcases List.mem_cons.mp ho with ho | ho
              · omega
              · have := h3 o ho
                omega
            · rw [hobjs]
              refine List.nodup_cons.mpr ⟨fun hj => ?_, h4⟩
              have := (h3 j hj).1
              omega
            · rw [htms]
              simp only [Nat.sub_self, frag_text_cons_zero, hFt, Option.getD_some]
              exact hsb
            · rw [hobjs, htms, htme]
              have hne : ¬ (j = (tm_get (build_aux (j + 1) rest)
                  (e - (c :: cs).length)).obj) := by omega
              simp only [if_neg hne]
              rw [upd_fold_cons]
              rw [del_step_firstonly_zero _ _ _ _ _ _ (by omega), hFt]
              simp only [Option.getD_some]
              rw [upd_fold_shift _ _ _ _ _ _ _ _
                (fun o ho => by have := (h3 o ho).1; omega)]
              have hpos : (tm_get (build_aux (j + 1) rest) (e - (c :: cs).length)).obj - j
                  = ((tm_get (build_aux (j + 1) rest)
                      (e - (c :: cs).length)).obj - (j + 1)) + 1 := by
                omega
              rw [hpos, ins_at_cons_succ, objects_to_text_cons]
              simp only [Option.getD_some]
              have htake : (build_aux j (F :: rest)).take s
                  = entries_of j 0 ((c :: cs).take s) := by
                rw [hmap, List.take_append_of_le_length (by rw [hblen]; omega),
                  entries_of_take]
              have hdropR : (build_aux j (F :: rest)).drop (e + 1)
                  = (build_aux (j + 1) rest).drop ((e - (c :: cs).length) + 1) := by
                rw [hmap, List.drop_append_eq_append_drop,
                  List.drop_eq_nil_of_le (by rw [hblen]; omega), List.nil_append]
                congr 1
                rw [hblen]
                omega
              rw [htake, hdropR, h5, entries_of_map_char]
              simp [List.append_assoc]
        · -- the window starts past the text of F
          have hsge : (c :: cs).length ≤ s := by omega
          have hrw : objects_from_txt_map s e (build_aux j (F :: rest))
              = objects_from_txt_map (s - (c :: cs).length) (e - (c :: cs).length)
                  (build_aux (j + 1) rest) := by
            rw [hmap, objects_window_skip _ _ _ _ (by rw [hblen]; omega) hse, hblen]
          have htms : tm_get (build_aux j (F :: rest)) s
              = tm_get (build_aux (j + 1) rest) (s - (c :: cs).length) := by
            rw [hmap, tm_get_append_right _ _ _ (by rw [hblen]; omega), hblen]
          have htme : tm_get (build_aux j (F :: rest)) e
              = tm_get (build_aux (j + 1) rest) (e - (c :: cs).length) := by
            rw [hmap, tm_get_append_right _ _ _ (by rw [hblen]; omega), hblen]
          have he' : e - (c :: cs).length < (build_aux (j + 1) rest).length := by
            rw [hmap, List.length_append, hblen] at he
            omega
          obtain ⟨h1, h2, h3, h4, h5, h6, h7⟩ :=
            ih (j + 1) (s - (c :: cs).length) (e - (c :: cs).length) r (by omega) he'
          have hfo_mem : (tm_get (build_aux (j + 1) rest) (s - (c :: cs).length)).obj
              ∈ objects_from_txt_map (s - (c :: cs).length) (e - (c :: cs).length)
                  (build_aux (j + 1) rest) :=
            List.mem_of_mem_head? (Option.mem_def.mpr h2)
          have hlo_mem := List.mem_of_getLast?_eq_some h3
          have hfo_ge : j + 1
              ≤ (tm_get (build_aux (j + 1) rest) (s - (c :: cs).length)).obj :=
            (h4 _ hfo_mem).1
          have hlo_ge : j + 1
              ≤ (tm_get (build_aux (j + 1) rest) (e - (c :: cs).length)).obj :=
            (h4 _ hlo_mem).1
          refine ⟨?_, ?_, ?_, ?_, ?_, ?_, ?_⟩
          · rw [hrw]; exact h1
          · rw [hrw, htms]; exact h2
          · rw [hrw, htme]; exact h3
          · intro o ho
            rw [hrw] at ho
            have := h4 o ho
            simp only [List.length_cons]
            omega
          · rw [hrw]; exact h5
          · rw [htms]
            have hpos : (tm_get (build_aux (j + 1) rest) (s - (c :: cs).length)).obj - j
                = ((tm_get (build_aux (j + 1) rest)
                    (s - (c :: cs).length)).obj - (j + 1)) + 1 := by omega
            rw [hpos, frag_text_cons_succ]
            exact h6
          · rw [hrw, htms, htme]
            rw [upd_fold_shift _ _ _ _ _ _ _ _
              (fun o ho => by have := (h4 o ho).1; omega)]
            have hpos : (tm_get (build_aux (j + 1) rest) (e - (c :: cs).length)).obj - j
                = ((tm_get (build_aux (j + 1) rest)
                    (e - (c :: cs).length)).obj - (j + 1)) + 1 := by omega
            rw [hpos, ins_at_cons_succ, objects_to_text_cons, hFt]
            simp only [Option.getD_some]
            have htakeR : (build_aux j (F :: rest)).take s
                = entries_of j 0 (c :: cs)
                  ++ (build_aux (j + 1) rest).take (s - (c :: cs).length) := by
              rw [hmap, List.take_append_eq_append_take,
                List.take_of_length_le (by rw [hblen]; omega), hblen]
            have hdropR : (build_aux j (F :: rest)).drop (e + 1)
                = (build_aux (j + 1) rest).drop ((e - (c :: cs).length) + 1) := by
              rw [hmap, List.drop_append_eq_append_drop,
                List.drop_eq_nil_of_le (by rw [hblen]; omega), List.nil_append]
              congr 1
              rw [hblen]
              omega
            rw [htakeR, hdropR, List.map_append, entries_of_map_char, h7]
            simp [List.append_assoc]


/-! ### Bridging lemmas between the deletion loop and the fold form -/

theorem frag_text_set_self (frags : List Fragment) (p : Nat) (X : Str)
    (h : p < frags.length) :
    frag_text (set_frag_text frags p (some X)) p = some X := by
  unfold set_frag_text frag_text
  cases hg : frags.get? p with
  | none =>
    rw [List.get?_eq_getElem?] at hg
    simp [List.getElem?_eq_none_iff] at hg
    omega
  | some f =>
    simp [List.get?_eq_getElem?, List.getElem?_set_self h]

theorem insert_str_nil (Y : Str) (idx : Nat) : insert_str Y [] idx = Y := by
  simp [insert_str]

theorem objects_to_text_set_getD (frags : List Fragment) :
    ∀ p, objects_to_text (set_frag_text frags p (some ((frag_text frags p).getD [])))
      = objects_to_text frags := by
  induction frags with
  | nil => intro p; rfl
  | cons F rest ih =>
    intro p
    cases p with
    | zero =>
      rw [frag_text_cons_zero, set_frag_text_cons_zero, objects_to_text_cons,
        objects_to_text_cons]
      congr 1
    | succ n =>
      rw [frag_text_cons_succ, set_frag_text_cons_succ, objects_to_text_cons,
        objects_to_text_cons, ih]

theorem head_last_nodup_eq (l : List Nat) (a : Nat) (h1 : l.head? = some a)
    (h2 : l.getLast? = some a) (h3 : l.Nodup) : l = [a] := by
  cases l with
  | nil => cases h1
  | cons x xs =>
    simp only [List.head?_cons, Option.some.injEq] at h1
    subst h1
    cases xs with
    | nil => rfl
    | cons y ys =>
      rw [List.getLast?_cons_cons] at h2
      have hx : x ∈ y :: ys := List.mem_of_getLast?_eq_some h2
      rw [List.nodup_cons] at h3
      exact absurd hx h3.1

theorem del_loop_fst (stp edp fo lo : Nat) (objs : List Nat) :
    ∀ acc : List Fragment × Nat × Nat,
      (del_loop stp edp fo lo objs acc).1 = upd_fold stp edp fo lo 0 acc.1 objs := by
  induction objs with
  | nil => intro acc; rfl
  | cons o os ih =>
    intro acc
    obtain ⟨frags, w, x⟩ := acc
    show (del_loop stp edp fo lo os _).1 = _
    rw [ih, upd_fold_cons]
    congr 2
    cases hfo : (o == fo) <;> cases hlo : (o == lo) <;>
      simp [del_step, Nat.sub_zero, hfo, hlo, bne]

theorem del_loop_append (stp edp fo lo : Nat) (objs1 objs2 : List Nat)
    (acc : List Fragment × Nat × Nat) :
    del_loop stp edp fo lo (objs1 ++ objs2) acc
      = del_loop stp edp fo lo objs2 (del_loop stp edp fo lo objs1 acc) := by
  induction objs1 generalizing acc with
  | nil => rfl
  | cons o os ih =>
    obtain ⟨frags, w, x⟩ := acc
    show del_loop stp edp fo lo (os ++ objs2) _ = _
    rw [ih]
    rfl

theorem del_loop_snd_skip (stp edp fo lo : Nat) (objs : List Nat) (h : lo ∉ objs) :
    ∀ acc : List Fragment × Nat × Nat,
      (del_loop stp edp fo lo objs acc).2 = acc.2 := by
  induction objs with
  | nil => intro acc; rfl
  | cons o os ih =>
    intro acc
    obtain ⟨frags, w, x⟩ := acc
    have ho : o ≠ lo := fun hh => h (by simp [hh])
    have hnotin : lo ∉ os := fun hh => h (List.mem_cons_of_mem _ hh)
    have hbeq : (o == lo) = false := beq_eq_false_iff_ne.mpr ho
    show (del_loop stp edp fo lo os _).2 = _
    rw [ih hnotin]
    cases hfo : (o == fo) <;> simp [hbeq, hfo, bne]

theorem del_loop_snd_last (stp edp fo lo : Nat) (hne : lo ≠ fo)
    (frags : List Fragment) (w x : Nat) :
    (del_loop stp edp fo lo [lo] (frags, w, x)).2 = (lo, 0) := by
  have hbeq : (lo == fo) = false := beq_eq_false_iff_ne.mpr hne
  simp [del_loop, hbeq]

theorem del_loop_snd_single (stp edp o : Nat) (frags : List Fragment) (w x : Nat)
    (ho : o < frags.length) :
    (del_loop stp edp o o [o] (frags, w, x)).2
      = (o, (((frag_text frags o).getD []).take stp).length) := by
  simp only [del_loop, beq_self_eq_true, if_true]
  rw [frag_text_set_self _ _ _ ho]
  rfl


/-! ### Inversion of the match-descriptor constructor -/

theorem check_bounds_iff (i_start i_end : Int) (map_len : Nat) :
    check_txt_map_bounds i_start i_end map_len = true ↔
      0 ≤ i_start ∧ i_start < map_len ∧ 0 ≤ i_end ∧ i_end < map_len ∧ i_start ≤ i_end := by
  simp only [check_txt_map_bounds, Bool.not_eq_true', Bool.or_eq_false_iff,
    decide_eq_false_iff_not]
  omega

theorem gmi_ok_inversion (cfg : DxsrConfig) (frags : List Fragment)
    (rels : List (Str × Str)) (re : ReMatch) (txt_map : List TMEntry) (m : MatchD)
    (h : _get_match_info cfg frags rels re txt_map [] = .ok m) :
    1 ≤ re.e ∧ re.s ≤ re.e - 1 ∧ re.e - 1 < txt_map.length ∧
    text_from_txt_map re.s (re.e - 1) txt_map = re.group ∧
    m.text = text_from_txt_map re.s (re.e - 1) txt_map ∧
    m.objects = objects_from_txt_map re.s (re.e - 1) txt_map ∧
    m.startpos = (tm_get txt_map re.s).charpos ∧
    m.endpos = (tm_get txt_map (re.e - 1)).charpos := by
  unfold _get_match_info at h
  split at h
  · cases h
  · split at h
    · cases h
    · rename_i hlen hbnd
      have hbnd2 : check_txt_map_bounds (re.s : Int) ((re.e : Int) - 1) txt_map.length
          = true := by
        simpa using hbnd
      obtain ⟨hb1, hb2, hb3, hb4, hb5⟩ := (check_bounds_iff _ _ _).mp hbnd2
      have he1 : 1 ≤ re.e := by omega
      have hcast : ((re.e : Int) - 1) = ((re.e - 1 : Nat) : Int) := by omega
      rw [hcast] at hb3 hb4 hb5
      have he2 : re.s ≤ re.e - 1 := by exact_mod_cast hb5
      have he3 : re.e - 1 < txt_map.length := by exact_mod_cast hb4
      by_cases htxt : text_from_txt_map re.s (re.e - 1) txt_map = re.group
      · refine ⟨he1, he2, he3, htxt, ?_⟩
        simp only [if_pos htxt] at h
        rcases hcase : hyperlinks_for_text_objects frags rels
            (objects_from_txt_map re.s (re.e - 1) txt_map) with msg | hls
        · rw [hcase] at h
          cases h
        · simp only [hcase, List.foldlM_nil, pure, Except.pure] at h
          by_cases hp : cfg.peek_matches
          · simp only [if_pos hp] at h
            injection h with h2
            subst h2
            exact ⟨rfl, rfl, rfl, rfl⟩
          · simp only [if_neg hp] at h
            injection h with h2
            subst h2
            exact ⟨rfl, rfl, rfl, rfl⟩
      · simp only [if_neg htxt] at h
        cases h


/-! ### The concatenation property of replace_match (claim C1, amended) -/

theorem objects_to_text_ins_nil (frags : List Fragment) (p idx : Nat) :
    objects_to_text (ins_at frags p [] idx) = objects_to_text frags := by
  unfold ins_at
  rw [insert_str_nil]
  exact objects_to_text_set_getD frags p

theorem del_result_eq (frags : List Fragment) (rels : List (Str × Str)) (m : MatchD)
    (MAP : List TMEntry) (S E : Nat)
    (hobjs : m.objects = objects_from_txt_map S E MAP)
    (hsp : m.startpos = (tm_get MAP S).charpos)
    (hep : m.endpos = (tm_get MAP E).charpos)
    (hhead : m.objects.head? = some ((tm_get MAP S).obj))
    (hlast : m.objects.getLast? = some ((tm_get MAP E).obj))
    (hnd : m.objects.Nodup)
    (hbnd : ∀ o ∈ m.objects, o < frags.length)
    (hstp : (tm_get MAP S).charpos
      < ((frag_text frags ((tm_get MAP S).obj)).getD []).length) :
    del_result ⟨frags, rels⟩ m
      = (upd_fold (tm_get MAP S).charpos
          (tm_get MAP E).charpos
          (tm_get MAP S).obj
          (tm_get MAP E).obj 0 frags m.objects,
        (tm_get MAP E).obj,
        if (tm_get MAP S).obj = (tm_get MAP E).obj
          then (tm_get MAP S).charpos else 0) := by
  have hheadD : m.objects.headD 0 = (tm_get MAP S).obj := by
    rw [List.headD_eq_head?_getD, hhead]
    rfl
  have hlastD : m.objects.getLastD 0 = (tm_get MAP E).obj := by
    rw [List.getLastD_eq_getLast?, hlast]
    rfl
  unfold del_result
  rw [hsp, hep, hheadD, hlastD]
  refine Prod.ext ?_ ?_
  · rw [del_loop_fst]
  · by_cases hfl : (tm_get MAP S).obj
        = (tm_get MAP E).obj
    · have hsingle : m.objects = [(tm_get MAP S).obj] :=
        head_last_nodup_eq _ _ hhead (by rw [hlast, hfl]) hnd
      have hlt : (tm_get MAP S).obj < frags.length := by
        apply hbnd
        rw [hsingle]
        simp
      rw [hsingle, ← hfl, del_loop_snd_single _ _ _ _ _ _ hlt]
      simp only [if_pos hfl]
      have : ((((frag_text frags ((tm_get MAP S).obj)).getD []).take
          ((tm_get MAP S).charpos)).length)
          = (tm_get MAP S).charpos := by
        rw [List.length_take]
        omega
      rw [this]
      simp
    · obtain ⟨l0, hl0⟩ := List.getLast?_eq_some_iff.mp hlast
      have hnotin : (tm_get MAP E).obj ∉ l0 := by
        rw [hl0] at hnd
        intro hmem
        rcases List.nodup_append.mp hnd with ⟨-, -, hdisj⟩
        exact hdisj hmem (by simp)
      rw [hl0, del_loop_append, del_loop_snd_last _ _ _ _ ?hne]
      case hne => omega
      simp only [if_neg hfl]


/-- Claim C1, amended.  For a match descriptor produced from the
paragraph's current character map (no match modifiers), after
replace_match with a decision function answering (repl, newhl), the
concatenation of the paragraph's fragment texts equals (text before the
match) ++ (the replacement text when repl = some r, and nothing when
repl = none) ++ (text after the match).  In particular a decision of
(none, none) deletes the matched text from the concatenation; it does not
leave the text unchanged. -/
theorem claim_C1_amended (cfg : DxsrConfig) (frags : List Fragment)
    (rels : List (Str × Str)) (re : ReMatch) (m : MatchD) (f : ReplaceFunc)
    (repl newhl : Option Str)
    (hm : _get_match_info cfg frags rels re (build_txt_map frags) [] = .ok m)
    (hf : f m.text (m.hyperlinks.map (fun rid => (rels_get rels rid).getD []))
        (m.objects.map (fun o => frag_text (del_result ⟨frags, rels⟩ m).1 o))
        = (repl, newhl)) :
    objects_to_text (replace_match ⟨frags, rels⟩ m f).1.frags
      = ((build_txt_map frags).take re.s).map (fun x => x.char) ++ repl.getD []
        ++ ((build_txt_map frags).drop re.e).map (fun x => x.char) := by
  obtain ⟨he1, he2, he3, hfid, htext, hobjs, hsp, hep⟩ := gmi_ok_inversion _ _ _ _ _ _ hm
  obtain ⟨w1, w2, w3, w4, w5, w6, w7⟩ :=
    replace_window frags 0 re.s (re.e - 1) (repl.getD []) he2 he3
  simp only [Nat.sub_zero, Nat.zero_add] at w4 w6 w7
  have hbm : build_txt_map frags = build_aux 0 frags := rfl
  rw [hbm] at hobjs hsp hep ⊢
  have hbnd : ∀ o ∈ m.objects, o < frags.length := by
    intro o ho
    rw [hobjs] at ho
    exact (w4 o ho).2
  have hdel := del_result_eq frags rels m (build_aux 0 frags) re.s (re.e - 1)
    hobjs hsp hep (by rw [hobjs]; exact w2) (by rw [hobjs]; exact w3)
    (by rw [hobjs]; exact w5) hbnd w6
  have hE : re.e - 1 + 1 = re.e := by omega
  rw [hE, ← hobjs] at w7
  rw [hdel] at hf
  dsimp only at hf
  simp only [replace_match, hdel]
  rw [hf]
  cases repl with
  | none =>
    dsimp only
    simp only [Option.getD_none] at w7 ⊢
    rw [objects_to_text_ins_nil] at w7
    exact w7
  | some r =>
    dsimp only
    simp only [Option.getD_some] at w7 ⊢
    simp only [ins_at] at w7
    exact w7


/-- The deletion phase alone removes exactly the matched text: the
concatenation of the fragment texts after del_result is text-before ++
text-after. -/
theorem del_result_concat (cfg : DxsrConfig) (frags : List Fragment)
    (rels : List (Str × Str)) (re : ReMatch) (m : MatchD)
    (hm : _get_match_info cfg frags rels re (build_txt_map frags) [] = .ok m) :
    objects_to_text (del_result ⟨frags, rels⟩ m).1
      = ((build_txt_map frags).take re.s).map (fun x => x.char)
        ++ ((build_txt_map frags).drop re.e).map (fun x => x.char) := by
  obtain ⟨he1, he2, he3, hfid, htext, hobjs, hsp, hep⟩ := gmi_ok_inversion _ _ _ _ _ _ hm
  obtain ⟨w1, w2, w3, w4, w5, w6, w7⟩ :=
    replace_window frags 0 re.s (re.e - 1) [] he2 he3
  simp only [Nat.sub_zero, Nat.zero_add] at w4 w6 w7
  have hbm : build_txt_map frags = build_aux 0 frags := rfl
  rw [hbm] at hobjs hsp hep ⊢
  have hbnd : ∀ o ∈ m.objects, o < frags.length := by
    intro o ho
    rw [hobjs] at ho
    exact (w4 o ho).2
  have hdel := del_result_eq frags rels m (build_aux 0 frags) re.s (re.e - 1)
    hobjs hsp hep (by rw [hobjs]; exact w2) (by rw [hobjs]; exact w3)
    (by rw [hobjs]; exact w5) hbnd w6
  have hE : re.e - 1 + 1 = re.e := by omega
  rw [hE, ← hobjs] at w7
  rw [objects_to_text_ins_nil] at w7
  rw [hdel]
  simpa using w7

/-- Claim C10.  replace_match performs the deletion of the matched text
before consulting the decision function: the result depends on the
decision function only through its value at the already-truncated
fragment texts (part 1); and when the decision function returns no
replacement text, the deletion persists: the final fragment list is
exactly the deletion-phase state, whose concatenation is text-before ++
text-after with the match text gone (part 2). -/
theorem claim_C10_deletion_before_decision (cfg : DxsrConfig) (frags : List Fragment)
    (rels : List (Str × Str)) (re : ReMatch) (m : MatchD)
    (hm : _get_match_info cfg frags rels re (build_txt_map frags) [] = .ok m) :
    (∀ f1 f2 : ReplaceFunc,
      f1 m.text (m.hyperlinks.map (fun rid => (rels_get rels rid).getD []))
          (m.objects.map (fun o => frag_text (del_result ⟨frags, rels⟩ m).1 o))
        = f2 m.text (m.hyperlinks.map (fun rid => (rels_get rels rid).getD []))
          (m.objects.map (fun o => frag_text (del_result ⟨frags, rels⟩ m).1 o)) →
      replace_match ⟨frags, rels⟩ m f1 = replace_match ⟨frags, rels⟩ m f2) ∧
    (∀ (f : ReplaceFunc) (newhl : Option Str),
      f m.text (m.hyperlinks.map (fun rid => (rels_get rels rid).getD []))
          (m.objects.map (fun o => frag_text (del_result ⟨frags, rels⟩ m).1 o))
        = (none, newhl) →
      (replace_match ⟨frags, rels⟩ m f).1.frags = (del_result ⟨frags, rels⟩ m).1 ∧
      objects_to_text (replace_match ⟨frags, rels⟩ m f).1.frags
        = ((build_txt_map frags).take re.s).map (fun x => x.char)
          ++ ((build_txt_map frags).drop re.e).map (fun x => x.char)) := by
  rcases hdd : del_result ⟨frags, rels⟩ m with ⟨d1, d2, d3⟩
  constructor
  · intro f1 f2 hagree
    dsimp only at hagree
    simp only [replace_match, hdd, hagree]
  · intro f newhl hf
    dsimp only at hf
    have hfr : (replace_match ⟨frags, rels⟩ m f).1.frags = d1 := by
      simp only [replace_match, hdd]
      rw [hf]
    refine ⟨by rw [hfr], ?_⟩
    rw [hfr]
    have := del_result_concat cfg frags rels re m hm
    rw [hdd] at this
    exact this

/-- Claim C1, counterexample.  On the one-object paragraph ab, the match
descriptor for the engine match a is produced, and a decision function
answering (None, None) leaves the concatenated text as b: the matched
character has been deleted, the text is not unchanged. -/
theorem claim_C1_counterexample :
    _get_match_info {} frags_ab [] ⟨0, 1, 'a' :: []⟩ (build_txt_map frags_ab) []
      = .ok match_ab_a
    ∧ objects_to_text (replace_match ⟨frags_ab, []⟩ match_ab_a
        (fun _ _ _ => (none, none))).1.frags = 'b' :: []
    ∧ ('b' :: [] : Str) ≠ objects_to_text frags_ab := by
  refine ⟨rfl, by decide, by decide⟩

/-- Witness for the amended claim C1: the cross-object match lo Wo of
Hello World replaced by X yields the concatenation Hel ++ X ++ rld. -/
theorem claim_C1_amended_witness :
    objects_to_text (replace_match ⟨frags_hello, []⟩ match_loWo
        (fun _ _ _ => (some ('X' :: []), none))).1.frags
      = ((build_txt_map frags_hello).take re_loWo.s).map (fun x => x.char)
        ++ (some ('X' :: []) : Option Str).getD []
        ++ ((build_txt_map frags_hello).drop re_loWo.e).map (fun x => x.char) :=
  claim_C1_amended {} frags_hello [] re_loWo match_loWo
    (fun _ _ _ => (some ('X' :: []), none)) (some ('X' :: [])) none rfl rfl

/-- Witness for claim C10: on the paragraph ab with the match a and a
decision of (None, None), the final fragments are the deletion-phase
fragments and the concatenation is the text with a removed. -/
theorem claim_C10_witness :
    (replace_match ⟨frags_ab, []⟩ match_ab_a (fun _ _ _ => (none, none))).1.frags
      = (del_result ⟨frags_ab, []⟩ match_ab_a).1
    ∧ objects_to_text (replace_match ⟨frags_ab, []⟩ match_ab_a
        (fun _ _ _ => (none, none))).1.frags
      = ((build_txt_map frags_ab).take (⟨0, 1, 'a' :: []⟩ : ReMatch).s).map
          (fun x => x.char)
        ++ ((build_txt_map frags_ab).drop (⟨0, 1, 'a' :: []⟩ : ReMatch).e).map
          (fun x => x.char) :=
  (claim_C10_deletion_before_decision {} frags_ab [] ⟨0, 1, 'a' :: []⟩ match_ab_a
      rfl).2 (fun _ _ _ => (none, none)) none rfl

/-- Claim C7, counterexample.  Searching Hel / lo Wo / rld for lo Wo and
replacing with X: the match descriptor spans only the middle object, so
the replacement is inserted there; the last object keeps its text rld,
not Xrld. -/
theorem claim_C7_counterexample :
    find_matches {} [] frags_hello [fun _ => [re_loWo]] [] = .ok (match_loWo :: [])
    ∧ frag_text (replace_match ⟨frags_hello, []⟩ match_loWo
        (fun _ _ _ => (some ('X' :: []), none))).1.frags 2
      = some ('r' :: 'l' :: 'd' :: [])
    ∧ some ('r' :: 'l' :: 'd' :: []) ≠ some ('X' :: 'r' :: 'l' :: 'd' :: []) := by
  refine ⟨rfl, by decide, by decide⟩

/-- Claim C7, amended.  In the scenario of the claim (objects Hel, lo Wo,
rld; pattern lo Wo; replacement X) the match spans only the middle
object: the first object keeps Hel, the middle object becomes X, the last
object keeps rld, and the concatenated text is HelXrld. -/
theorem claim_C7_amended :
    find_matches {} [] frags_hello [fun _ => [re_loWo]] [] = .ok (match_loWo :: [])
    ∧ (replace_match ⟨frags_hello, []⟩ match_loWo
        (fun _ _ _ => (some ('X' :: []), none))).1.frags
      = [⟨some ('H' :: 'e' :: 'l' :: []), none⟩, ⟨some ('X' :: []), none⟩,
         ⟨some ('r' :: 'l' :: 'd' :: []), none⟩]
    ∧ objects_to_text (replace_match ⟨frags_hello, []⟩ match_loWo
        (fun _ _ _ => (some ('X' :: []), none))).1.frags
      = 'H' :: 'e' :: 'l' :: 'X' :: 'r' :: 'l' :: 'd' :: [] := by
  refine ⟨rfl, by decide, by decide⟩

/-- Claim C3, counterexample.  On the paragraph ab with the engine match
a and a modifier growing the span to cover the whole map, the produced
descriptor's text field is ab, not the engine-reported substring a. -/
theorem claim_C3_counterexample :
    _get_match_info {} frags_ab [] ⟨0, 1, 'a' :: []⟩ (build_txt_map frags_ab)
        [grow_modifier]
      = .ok ⟨'a' :: 'b' :: [], 0 :: [], 0, 1, [], some ('a' :: 'b' :: [])⟩
    ∧ ('a' :: 'b' :: [] : Str) ≠ (⟨0, 1, 'a' :: []⟩ : ReMatch).group := by
  refine ⟨rfl, by decide⟩

/-- Claim C3, amended.  With no match modifiers the descriptor's text
field equals the engine-reported substring (part 1), and a mismatch
between the map reconstruction and the engine-reported text is a fatal
error (part 2); but after a modifier adjusts the span, the text is
rebuilt from the character map over the adjusted span (part 3), so it
need not equal the engine-reported substring. -/
theorem claim_C3_amended :
    (∀ (cfg : DxsrConfig) (frags : List Fragment) (rels : List (Str × Str))
        (re : ReMatch) (txt_map : List TMEntry) (m : MatchD),
      _get_match_info cfg frags rels re txt_map [] = .ok m → m.text = re.group) ∧
    (∀ (cfg : DxsrConfig) (frags : List Fragment) (rels : List (Str × Str))
        (re : ReMatch) (txt_map : List TMEntry) (mods : List Modifier),
      txt_map.length ≠ 0 →
      check_txt_map_bounds (re.s : Int) ((re.e : Int) - 1) txt_map.length = true →
      text_from_txt_map re.s (re.e - 1) txt_map ≠ re.group →
      _get_match_info cfg frags rels re txt_map mods
        = .error "Fatal error, match_from_txt_map != re_match.group()!") ∧
    (∀ (frags : List Fragment) (rels : List (Str × Str)) (txt_map : List TMEntry)
        (st : MState) (md : Modifier) (st' : MState),
      apply_modifier frags rels txt_map st md = .ok st' →
      st' = st ∨ st'.text = text_from_txt_map st'.i_s st'.i_e txt_map) := by
  refine ⟨?_, ?_, ?_⟩
  · intro cfg frags rels re txt_map m hm
    obtain ⟨-, -, -, hfid, htext, -, -, -⟩ := gmi_ok_inversion _ _ _ _ _ _ hm
    rw [htext, hfid]
  · intro cfg frags rels re txt_map mods hlen hck htxt
    have h1 : (txt_map.length == 0) = false := by simpa using hlen
    have h2 : (!check_txt_map_bounds (re.s : Int) ((re.e : Int) - 1) txt_map.length)
        = false := by simp [hck]
    simp [_get_match_info, h1, h2, htxt]
  · intro frags rels txt_map st md st' h
    rcases hmod : md st.i_s st.i_e txt_map st.hls with ⟨ns, ne⟩
    simp only [apply_modifier, hmod] at h
    by_cases hsame : (ns == (st.i_s : Int) && ne == (st.i_e : Int)) = true
    · rw [if_pos hsame] at h
      injection h with h
      exact Or.inl h.symm
    · rw [if_neg hsame] at h
      by_cases hbd : (!check_txt_map_bounds ns ne txt_map.length) = true
      · rw [if_pos hbd] at h
        cases h
      · rw [if_neg hbd] at h
        rcases hcase : hyperlinks_for_text_objects frags rels
            (objects_from_txt_map ns.toNat ne.toNat txt_map) with msg | hls
        · rw [hcase] at h
          cases h
        · rw [hcase] at h
          injection h with h
          subst h
          exact Or.inr rfl

/-- Witness for the amended claim C3: on the paragraph ab with no
modifiers, the descriptor's text equals the engine-reported a. -/
theorem claim_C3_witness :
    match_ab_a.text = (⟨0, 1, 'a' :: []⟩ : ReMatch).group :=
  claim_C3_amended.1 {} frags_ab [] ⟨0, 1, 'a' :: []⟩ (build_txt_map frags_ab)
    match_ab_a rfl

/-- Claim C4, counterexample.  On the paragraph ab, the engine reports a
zero-width match at position 2; its end index 2 does not exceed the map
length 2, yet find_matches discards it (the start index reaching the map
length is what triggers the discard). -/
theorem claim_C4_counterexample :
    find_matches {} [] frags_ab [tail_pattern] [] = .ok []
    ∧ tail_pattern (objects_to_text frags_ab) = [⟨2, 2, []⟩]
    ∧ ¬ ((⟨2, 2, []⟩ : ReMatch).e > (build_txt_map frags_ab).length) := by
  refine ⟨rfl, rfl, by decide⟩

/-- Claim C4, amended.  The match loop silently discards exactly the
matches whose start index is at or past the character map length and
processes all others (part 1); under the engine guarantees start ≤ end
and end ≤ length, the discarded matches are exactly the zero-width
matches sitting at the position just past the mapped text (part 2). -/
theorem claim_C4_amended :
    (∀ (cfg : DxsrConfig) (frags : List Fragment) (rels : List (Str × Str))
        (txt_map : List TMEntry) (mods : List Modifier) (ms : List ReMatch),
      find_matches_loop cfg frags rels txt_map mods txt_map.length ms
        = find_matches_loop cfg frags rels txt_map mods txt_map.length
            (ms.filter (fun mm => decide (mm.s < txt_map.length)))) ∧
    (∀ (mm : ReMatch) (n : Nat), mm.s ≤ mm.e → mm.e ≤ n →
      (n ≤ mm.s ↔ (mm.s = n ∧ mm.e = n))) := by
  constructor
  · intro cfg frags rels txt_map mods ms
    induction ms with
    | nil => rfl
    | cons mm rest ih =>
      by_cases hs : mm.s ≥ txt_map.length
      · have hdec : decide (mm.s < txt_map.length) = false := by
          simp only [decide_eq_false_iff_not]
          omega
        simp only [find_matches_loop, if_pos hs, List.filter_cons, hdec, ih]
        simp
      · have hdec : decide (mm.s < txt_map.length) = true := by
          simp only [decide_eq_true_eq]
          omega
        simp only [find_matches_loop, if_neg hs, List.filter_cons, hdec, if_true, ih]
  · intro mm n h1 h2
    omega

/-- Witness for the amended claim C4: the zero-width match at the end of
the paragraph ab is filtered out by the loop, and it is indeed the
zero-width match at the map length. -/
theorem claim_C4_witness :
    (find_matches_loop {} frags_ab [] (build_txt_map frags_ab) []
        (build_txt_map frags_ab).length [⟨2, 2, []⟩]
      = find_matches_loop {} frags_ab [] (build_txt_map frags_ab) []
          (build_txt_map frags_ab).length
          (([⟨2, 2, []⟩] : List ReMatch).filter
            (fun mm => decide (mm.s < (build_txt_map frags_ab).length))))
    ∧ ((2 : Nat) ≤ (⟨2, 2, []⟩ : ReMatch).s ↔
        ((⟨2, 2, []⟩ : ReMatch).s = 2 ∧ (⟨2, 2, []⟩ : ReMatch).e = 2)) :=
  ⟨claim_C4_amended.1 {} frags_ab [] (build_txt_map frags_ab) [] [⟨2, 2, []⟩],
   claim_C4_amended.2 ⟨2, 2, []⟩ 2 (by decide) (by decide)⟩

/-- The replacement loop with a positive limit N: as long as fewer than N
replacements have happened, it replaces the leading min(N - done, left)
matches in order and reports the final count. -/
theorem replace_all_loop_pos (f : ReplaceFunc) (N : Int) (hN : 0 < N) :
    ∀ (ml : List MatchD) (st : DocState) (n : Nat), (n : Int) < N →
    replace_all_loop st f N ml n
      = (apply_matches st f (ml.take (min (N.toNat - n) ml.length)),
         n + min (N.toNat - n) ml.length) := by
  intro ml
  induction ml with
  | nil =>
    intro st n hn
    simp [replace_all_loop, apply_matches]
  | cons mm rest ih =>
    intro st n hn
    cases hstop : (((n + 1 : Nat) : Int) == N) with
    | true =>
      have hNe : ((n + 1 : Nat) : Int) = N := by simpa using hstop
      have htn : N.toNat = n + 1 := by omega
      have hmin : min (N.toNat - n) (mm :: rest).length = 1 := by
        simp only [List.length_cons]
        omega
      simp only [replace_all_loop, hstop, if_true, hmin, List.take_succ_cons,
        List.take_zero]
      simp [apply_matches]
    | false =>
      have hne : ((n + 1 : Nat) : Int) ≠ N := by simpa using hstop
      have hlt : ((n + 1 : Nat) : Int) < N := by
        push_cast at hne hn ⊢
        omega
      simp only [replace_all_loop, hstop, Bool.false_eq_true, if_false]
      rw [ih _ (n + 1) hlt]
      have hk : min (N.toNat - n) (mm :: rest).length
          = min (N.toNat - (n + 1)) rest.length + 1 := by
        simp only [List.length_cons]
        omega
      rw [hk, List.take_succ_cons]
      simp only [Prod.mk.injEq]
      refine ⟨by simp [apply_matches], by omega⟩

/-- The replacement loop with limit 0 never stops early: every match is
replaced and the count is the number of matches. -/
theorem replace_all_loop_zero (f : ReplaceFunc) :
    ∀ (ml : List MatchD) (st : DocState) (n : Nat),
    replace_all_loop st f 0 ml n = (apply_matches st f ml, n + ml.length) := by
  intro ml
  induction ml with
  | nil =>
    intro st n
    simp [replace_all_loop, apply_matches]
  | cons mm rest ih =>
    intro st n
    have hstop : (((n + 1 : Nat) : Int) == (0 : Int)) = false := by
      simp only [beq_eq_false_iff_ne, ne_eq]
      intro hcon
      omega
    simp only [replace_all_loop, hstop, Bool.false_eq_true, if_false]
    rw [ih]
    simp only [Prod.mk.injEq]
    refine ⟨by simp [apply_matches], by simp only [List.length_cons]; omega⟩

/-- Claim C5.  replace_all with a negative max_replacements is an error
(part 1); with N > 0 it replaces exactly the first min(N, total) matches
in order, leaving the rest untouched, and returns that count (part 2);
with N = 0 it replaces every match (part 3). -/
theorem claim_C5_bounded_replacement :
    (∀ (st : DocState) (ml : List MatchD) (f : ReplaceFunc) (N : Int),
      N < 0 → replace_all st ml f N = .error "max_replacements must be >= 0") ∧
    (∀ (st : DocState) (ml : List MatchD) (f : ReplaceFunc) (N : Int),
      0 < N →
      replace_all st ml f N
        = .ok (apply_matches st f (ml.take (min N.toNat ml.length)),
               min N.toNat ml.length)) ∧
    (∀ (st : DocState) (ml : List MatchD) (f : ReplaceFunc),
      replace_all st ml f 0 = .ok (apply_matches st f ml, ml.length)) := by
  refine ⟨?_, ?_, ?_⟩
  · intro st ml f N hN
    simp [replace_all, hN]
  · intro st ml f N hN
    have hnn : ¬ N < 0 := by omega
    have h0 : ((0 : Nat) : Int) < N := by simpa using hN
    have hloop := replace_all_loop_pos f N hN ml st 0 h0
    simp only [Nat.sub_zero, Nat.zero_add] at hloop
    simp [replace_all, hnn, hloop]
  · intro st ml f
    have h0 : ¬ (0 : Int) < 0 := by omega
    have hloop := replace_all_loop_zero f ml st 0
    simp only [Nat.zero_add] at hloop
    simp [replace_all, h0, hloop]

/-- Witness for claim C5: a limit of -1 is rejected, and a limit of 1 on
the Hello World paragraph replaces its single match and counts 1. -/
theorem claim_C5_witness :
    replace_all ⟨frags_ab, []⟩ [match_ab_a] (fun _ _ _ => (none, none)) (-1)
      = .error "max_replacements must be >= 0"
    ∧ replace_all ⟨frags_hello, []⟩ [match_loWo]
        (fun _ _ _ => (some ('X' :: []), none)) 1
      = .ok (apply_matches ⟨frags_hello, []⟩ (fun _ _ _ => (some ('X' :: []), none))
            ([match_loWo].take (min (1 : Int).toNat [match_loWo].length)),
          min (1 : Int).toNat [match_loWo].length) :=
  ⟨claim_C5_bounded_replacement.1 ⟨frags_ab, []⟩ [match_ab_a]
      (fun _ _ _ => (none, none)) (-1) (by decide),
   claim_C5_bounded_replacement.2.1 ⟨frags_hello, []⟩ [match_loWo]
      (fun _ _ _ => (some ('X' :: []), none)) 1 (by decide)⟩

/-- Claim C6, refuted by the code: on a document with one top-level
paragraph holding text object t0 and a nested sub-paragraph with text
objects t1 and t2, the loaded paragraph set assigns t2 (a fragment with
text) to BOTH paragraphs: the removal-during-iteration skips it in the
outer paragraph's list, so it is not exclusive to the nested paragraph. -/
theorem claim_C6_nested_paragraph_duplication :
    read_paragraphs xml_doc
      = [(xml_outer, [xml_t0, xml_t2]), (xml_inner, [xml_t1, xml_t2])]
    ∧ (∃ pr1 ∈ read_paragraphs xml_doc, ∃ pr2 ∈ read_paragraphs xml_doc,
        pr1.1 ≠ pr2.1 ∧ xml_t2 ∈ pr1.2 ∧ xml_t2 ∈ pr2.2) := by
  refine ⟨by rfl, (xml_outer, [xml_t0, xml_t2]), by decide,
    (xml_inner, [xml_t1, xml_t2]), by decide, by decide, by decide, by decide⟩

/-- The collect loop fails exactly when some object has a hyperlink
ancestor carrying more than one rId, independently of the accumulator. -/
theorem collect_error_iff (frags : List Fragment) :
    ∀ (objs : List Nat) (acc : List Str),
      (∃ msg, collect_hl_ids frags objs acc = .error msg) ↔
      ∃ o ∈ objs, ∃ ids, frag_hyper frags o = some ids ∧ 1 < ids.length := by
  intro objs
  induction objs with
  | nil =>
    intro acc
    simp [collect_hl_ids]
  | cons o rest ih =>
    intro acc
    cases hh : frag_hyper frags o with
    | none =>
      simp only [collect_hl_ids, hh, ih]
      constructor
      · rintro ⟨o2, ho2, ids, hids, hlen⟩
        exact ⟨o2, List.mem_cons_of_mem _ ho2, ids, hids, hlen⟩
      · rintro ⟨o2, ho2, ids, hids, hlen⟩
        rcases List.mem_cons.mp ho2 with heq | ho2
        · subst heq
          rw [hh] at hids
          cases hids
        · exact ⟨o2, ho2, ids, hids, hlen⟩
    | some rIds =>
      by_cases h1 : (rIds.length == 1) = true
      · have hlen1 : rIds.length = 1 := by simpa using h1
        simp only [collect_hl_ids, hh, h1, if_true, ih]
        constructor
        · rintro ⟨o2, ho2, ids, hids, hlen⟩
          exact ⟨o2, List.mem_cons_of_mem _ ho2, ids, hids, hlen⟩
        · rintro ⟨o2, ho2, ids, hids, hlen⟩
          rcases List.mem_cons.mp ho2 with heq | ho2
          · subst heq
            rw [hh] at hids
            injection hids with hids
            subst hids
            omega
          · exact ⟨o2, ho2, ids, hids, hlen⟩
      · by_cases h2 : rIds.length > 1
        · simp only [collect_hl_ids, hh, h1, Bool.false_eq_true, if_false, if_pos h2]
          constructor
          · intro _
            exact ⟨o, List.mem_cons_self o rest, rIds, hh, h2⟩
          · intro _
            exact ⟨_, rfl⟩
        · have hlen0 : rIds.length = 0 := by
            have hne : rIds.length ≠ 1 := by simpa using h1
            omega
          simp only [collect_hl_ids, hh, h1, Bool.false_eq_true, if_false, if_neg h2, ih]
          constructor
          · rintro ⟨o2, ho2, ids, hids, hlen⟩
            exact ⟨o2, List.mem_cons_of_mem _ ho2, ids, hids, hlen⟩
          · rintro ⟨o2, ho2, ids, hids, hlen⟩
            rcases List.mem_cons.mp ho2 with heq | ho2
            · subst heq
              rw [hh] at hids
              injection hids with hids
              subst hids
              omega
            · exact ⟨o2, ho2, ids, hids, hlen⟩

/-- When the collect loop succeeds, the result holds exactly the
accumulator entries plus the singleton rIds of the walked objects, and
stays duplicate-free. -/
theorem collect_ok_spec (frags : List Fragment) :
    ∀ (objs : List Nat) (acc l : List Str),
      collect_hl_ids frags objs acc = .ok l →
      (∀ r, r ∈ l ↔ (r ∈ acc ∨ ∃ o ∈ objs, frag_hyper frags o = some [r])) ∧
      (acc.Nodup → l.Nodup) := by
  intro objs
  induction objs with
  | nil =>
    intro acc l h
    simp only [collect_hl_ids] at h
    injection h with h
    subst h
    exact ⟨fun r => by simp, fun h => h⟩
  | cons o rest ih =>
    intro acc l h
    cases hh : frag_hyper frags o with
    | none =>
      simp only [collect_hl_ids, hh] at h
      obtain ⟨hmem, hnd⟩ := ih acc l h
      refine ⟨fun r => ?_, hnd⟩
      rw [hmem r]
      constructor
      · rintro (hr | ⟨o2, ho2, hs⟩)
        · exact Or.inl hr
        · exact Or.inr ⟨o2, List.mem_cons_of_mem _ ho2, hs⟩
      · rintro (hr | ⟨o2, ho2, hs⟩)
        · exact Or.inl hr
        · rcases List.mem_cons.mp ho2 with heq | ho2
          · subst heq
            rw [hh] at hs
            cases hs
          · exact Or.inr ⟨o2, ho2, hs⟩
    | some rIds =>
      by_cases h1 : (rIds.length == 1) = true
      · have hlen1 : rIds.length = 1 := by simpa using h1
        obtain ⟨r0, hr0⟩ : ∃ r0, rIds = [r0] := by
          cases rIds with
          | nil => simp at hlen1
          | cons a t =>
            cases t with
            | nil => exact ⟨a, rfl⟩
            | cons b t2 => simp at hlen1
        subst hr0
        simp only [collect_hl_ids, hh, h1, if_true, List.headD_cons] at h
        obtain ⟨hmem, hnd⟩ := ih _ l h
        constructor
        · intro r
          rw [hmem r]
          by_cases hrin : r0 ∈ acc
          · rw [if_pos hrin]
            constructor
            · rintro (hr | ⟨o2, ho2, hs⟩)
              · exact Or.inl hr
              · exact Or.inr ⟨o2, List.mem_cons_of_mem _ ho2, hs⟩
            · rintro (hr | ⟨o2, ho2, hs⟩)
              · exact Or.inl hr
              · rcases List.mem_cons.mp ho2 with heq | ho2
                · subst heq
                  rw [hh] at hs
                  injection hs with hs
                  have : r = r0 := by
                    have := List.cons.injEq r0 [] r [] ▸ hs
                    injection hs with h1x h2x
                    exact h1x.symm
                  subst this
                  exact Or.inl hrin
                · exact Or.inr ⟨o2, ho2, hs⟩
          · rw [if_neg hrin]
            constructor
            · rintro (hr | ⟨o2, ho2, hs⟩)
              · rcases List.mem_append.mp hr with hr | hr
                · exact Or.inl hr
                · have : r = r0 := by simpa using hr
                  subst this
                  exact Or.inr ⟨o, List.mem_cons_self o rest, hh⟩
              · exact Or.inr ⟨o2, List.mem_cons_of_mem _ ho2, hs⟩
            · rintro (hr | ⟨o2, ho2, hs⟩)
              · exact Or.inl (List.mem_append.mpr (Or.inl hr))
              · rcases List.mem_cons.mp ho2 with heq | ho2
                · subst heq
                  rw [hh] at hs
                  injection hs with hs
                  injection hs with h1x h2x
                  subst h1x
                  exact Or.inl (List.mem_append.mpr (Or.inr (by simp)))
                · exact Or.inr ⟨o2, ho2, hs⟩
        · intro hacc
          apply hnd
          by_cases hrin : r0 ∈ acc
          · rw [if_pos hrin]
            exact hacc
          · rw [if_neg hrin]
            rw [List.nodup_append]
            refine ⟨hacc, List.nodup_singleton r0, fun a ha hb => ?_⟩
            have haeq : a = r0 := by simpa using hb
            exact hrin (haeq ▸ ha)
      · by_cases h2 : rIds.length > 1
        · simp only [collect_hl_ids, hh, h1, Bool.false_eq_true, if_false, if_pos h2] at h
          cases h
        · have hlen0 : rIds.length = 0 := by
            have hne : rIds.length ≠ 1 := by simpa using h1
            omega
          have hnil : rIds = [] := List.length_eq_zero.mp hlen0
          subst hnil
          simp only [collect_hl_ids, hh, h1, Bool.false_eq_true, if_false, if_neg h2] at h
          obtain ⟨hmem, hnd⟩ := ih acc l h
          refine ⟨fun r => ?_, hnd⟩
          rw [hmem r]
          constructor
          · rintro (hr | ⟨o2, ho2, hs⟩)
            · exact Or.inl hr
            · exact Or.inr ⟨o2, List.mem_cons_of_mem _ ho2, hs⟩
          · rintro (hr | ⟨o2, ho2, hs⟩)
            · exact Or.inl hr
            · rcases List.mem_cons.mp ho2 with heq | ho2
              · subst heq
                rw [hh] at hs
                cases hs
              · exact Or.inr ⟨o2, ho2, hs⟩

/-- The resolve loop fails exactly when one of the collected rIds is
missing from the relationship table; on success it returns its input. -/
theorem resolve_spec (rels : List (Str × Str)) :
    ∀ ids : List Str,
      ((∃ msg, resolve_hl_ids rels ids = .error msg) ↔
        ∃ r ∈ ids, rels_get rels r = none) ∧
      (∀ l, resolve_hl_ids rels ids = .ok l → l = ids) := by
  intro ids
  induction ids with
  | nil =>
    constructor
    · simp [resolve_hl_ids]
    · intro l h
      simp only [resolve_hl_ids] at h
      injection h with h
      exact h.symm
  | cons r rest ih =>
    cases hg : rels_get rels r with
    | some v =>
      constructor
      · constructor
        · rintro ⟨msg, hmsg⟩
          simp only [resolve_hl_ids, hg] at hmsg
          rcases hrec : resolve_hl_ids rels rest with m2 | l2
          · obtain ⟨r2, hr2, hnone⟩ := ih.1.mp ⟨m2, hrec⟩
            exact ⟨r2, List.mem_cons_of_mem _ hr2, hnone⟩
          · rw [hrec] at hmsg
            simp [Except.map] at hmsg
        · rintro ⟨r2, hr2, hnone⟩
          rcases List.mem_cons.mp hr2 with heq | hr2
          · subst heq
            rw [hg] at hnone
            cases hnone
          · obtain ⟨msg, hmsg⟩ := ih.1.mpr ⟨r2, hr2, hnone⟩
            refine ⟨msg, ?_⟩
            simp only [resolve_hl_ids, hg, hmsg, Except.map]
      · intro l h
        simp only [resolve_hl_ids, hg] at h
        rcases hrec : resolve_hl_ids rels rest with m2 | l2
        · rw [hrec] at h
          simp [Except.map] at h
        · rw [hrec] at h
          simp only [Except.map] at h
          injection h with h
          rw [← h, ih.2 l2 hrec]
    | none =>
      constructor
      · constructor
        · intro _
          exact ⟨r, List.mem_cons_self r rest, hg⟩
        · intro _
          exact ⟨"Hyperlink rId was not found in list of ids read from rels file!",
            by simp only [resolve_hl_ids, hg]⟩
      · intro l h
        simp only [resolve_hl_ids, hg] at h
        cases h

/-- When the collect loop succeeds, the result is exactly the stable
first-appearance de-duplication of the rIds met along the object walk,
folded onto the accumulator: the walk order is preserved. -/
theorem collect_ok_order (frags : List Fragment) :
    ∀ (objs : List Nat) (acc l : List Str),
      collect_hl_ids frags objs acc = .ok l →
      l = (walk_rids frags objs).foldl
            (fun a r => if r ∈ a then a else a ++ [r]) acc := by
  intro objs
  induction objs with
  | nil =>
    intro acc l h
    simp only [collect_hl_ids] at h
    injection h with h
    simp [walk_rids, h.symm]
  | cons o rest ih =>
    intro acc l h
    cases hh : frag_hyper frags o with
    | none =>
      simp only [collect_hl_ids, hh] at h
      have hrec := ih acc l h
      simp only [walk_rids, List.filterMap_cons, hh]
      simpa [walk_rids] using hrec
    | some ids =>
      by_cases h1 : (ids.length == 1) = true
      · simp only [collect_hl_ids, hh, h1, if_true] at h
        have hrec := ih _ l h
        simp only [walk_rids, List.filterMap_cons, hh, h1, if_true, List.foldl_cons]
        simpa [walk_rids] using hrec
      · by_cases h2 : ids.length > 1
        · simp only [collect_hl_ids, hh, h1, Bool.false_eq_true, if_false,
            if_pos h2] at h
          cases h
        · simp only [collect_hl_ids, hh, h1, Bool.false_eq_true, if_false,
            if_neg h2] at h
          have hrec := ih acc l h
          simp only [walk_rids, List.filterMap_cons, hh, h1, Bool.false_eq_true,
            if_false]
          simpa [walk_rids] using hrec

/-- Claim C8.  Hyperlink resolution fails exactly when some object's
hyperlink ancestor carries more than one rId, or some object's single
rId is missing from the relationship table (an ancestor with zero rIds
contributes nothing and is no error); a successful result is exactly the
first-appearance de-duplication of the rIds in object walk order — so it
is ordered, duplicate-free, and holds exactly the singleton rIds of the
objects. -/
theorem claim_C8_hyperlink_resolution :
    ∀ (frags : List Fragment) (rels : List (Str × Str)) (objs : List Nat),
      ((∃ msg, hyperlinks_for_text_objects frags rels objs = .error msg) ↔
        ((∃ o ∈ objs, ∃ ids, frag_hyper frags o = some ids ∧ 1 < ids.length) ∨
         (∃ o ∈ objs, ∃ r, frag_hyper frags o = some [r] ∧
            rels_get rels r = none))) ∧
      (∀ l, hyperlinks_for_text_objects frags rels objs = .ok l →
        l = (walk_rids frags objs).foldl
              (fun a r => if r ∈ a then a else a ++ [r]) [] ∧
        l.Nodup ∧ ∀ r ∈ l, ∃ o ∈ objs, frag_hyper frags o = some [r]) := by
  intro frags rels objs
  constructor
  · constructor
    · rintro ⟨msg, hmsg⟩
      rw [hyperlinks_for_text_objects] at hmsg
      rcases hcol : collect_hl_ids frags objs [] with m2 | ids
      · exact Or.inl ((collect_error_iff frags objs []).mp ⟨m2, hcol⟩)
      · rw [hcol] at hmsg
        obtain ⟨r, hr, hnone⟩ := ((resolve_spec rels ids).1).mp ⟨msg, hmsg⟩
        rcases ((collect_ok_spec frags objs [] ids hcol).1 r).mp hr with h0 | hx
        · exact absurd h0 (List.not_mem_nil r)
        · obtain ⟨o, ho, hs⟩ := hx
          exact Or.inr ⟨o, ho, r, hs, hnone⟩
    · rintro (hmulti | ⟨o, ho, r, hs, hnone⟩)
      · obtain ⟨msg, hmsg⟩ := (collect_error_iff frags objs []).mpr hmulti
        exact ⟨msg, by rw [hyperlinks_for_text_objects, hmsg]⟩
      · rcases hcol : collect_hl_ids frags objs [] with m2 | ids
        · exact ⟨m2, by rw [hyperlinks_for_text_objects, hcol]⟩
        · have hr : r ∈ ids :=
            ((collect_ok_spec frags objs [] ids hcol).1 r).mpr (Or.inr ⟨o, ho, hs⟩)
          obtain ⟨msg, hmsg⟩ := ((resolve_spec rels ids).1).mpr ⟨r, hr, hnone⟩
          exact ⟨msg, by rw [hyperlinks_for_text_objects, hcol]; exact hmsg⟩
  · intro l h
    rw [hyperlinks_for_text_objects] at h
    rcases hcol : collect_hl_ids frags objs [] with m2 | ids
    · rw [hcol] at h
      cases h
    · rw [hcol] at h
      have hl : l = ids := (resolve_spec rels ids).2 l h
      subst hl
      obtain ⟨hmem, hnd⟩ := collect_ok_spec frags objs [] l hcol
      refine ⟨collect_ok_order frags objs [] l hcol, hnd List.nodup_nil,
        fun r hr => ?_⟩
      rcases (hmem r).mp hr with h0 | hx
      · exact absurd h0 (List.not_mem_nil r)
      · exact hx

/-- Witness for claim C8: on a paragraph whose only object carries the
single rId r1 resolved by the relationship table, the error
characterisation holds and the successful result is the duplicate-free
singleton list pointing back at the object. -/
theorem claim_C8_witness :
    ((∃ msg, hyperlinks_for_text_objects frags_hl rels_hl [0] = .error msg) ↔
      ((∃ o ∈ [0], ∃ ids, frag_hyper frags_hl o = some ids ∧ 1 < ids.length) ∨
       (∃ o ∈ [0], ∃ r, frag_hyper frags_hl o = some [r] ∧
          rels_get rels_hl r = none)))
    ∧ (('r' :: '1' :: []) :: [])
        = (walk_rids frags_hl [0]).foldl
            (fun a r => if r ∈ a then a else a ++ [r]) []
    ∧ (('r' :: '1' :: []) :: []).Nodup
    ∧ (∀ r ∈ ('r' :: '1' :: []) :: [], ∃ o ∈ [0],
        frag_hyper frags_hl o = some [r]) :=
  ⟨(claim_C8_hyperlink_resolution frags_hl rels_hl [0]).1,
   ((claim_C8_hyperlink_resolution frags_hl rels_hl [0]).2 (('r' :: '1' :: []) :: []) rfl).1,
   ((claim_C8_hyperlink_resolution frags_hl rels_hl [0]).2 (('r' :: '1' :: []) :: []) rfl).2.1,
   ((claim_C8_hyperlink_resolution frags_hl rels_hl [0]).2 (('r' :: '1' :: []) :: []) rfl).2.2⟩

/-- Python dict assignment stores the pair under its key. -/
theorem mem_dict_set_self (d : PyDict) (k : SKey) (v : PyRepl) :
    (k, v) ∈ dict_set d k v := by
  unfold dict_set
  by_cases hany : d.any (fun kv => kv.1 == k) = true
  · rw [if_pos hany]
    obtain ⟨kv0, hkv0, hbeq⟩ := List.any_eq_true.mp hany
    have hmap : (fun kv => if kv.1 == k then (k, v) else kv) kv0 = (k, v) := by
      simp only [hbeq, if_true]
    exact List.mem_map.mpr ⟨kv0, hkv0, hmap⟩
  · rw [if_neg hany]
    simp

/-- Python dict assignment keeps every entry stored under another key. -/
theorem mem_dict_set_of_ne (d : PyDict) (k : SKey) (v : PyRepl)
    (kv : SKey × PyRepl) (hkv : kv ∈ d) (hne : kv.1 ≠ k) :
    kv ∈ dict_set d k v := by
  unfold dict_set
  by_cases hany : d.any (fun kv2 => kv2.1 == k) = true
  · rw [if_pos hany]
    have hmap : (fun kv2 => if kv2.1 == k then (k, v) else kv2) kv = kv := by
      simp [hne]
    exact List.mem_map.mpr ⟨kv, hkv, hmap⟩
  · rw [if_neg hany]
    exact List.mem_append.mpr (Or.inl hkv)

/-- Entries of a dict after assignment: the assigned pair, or an old
entry under a different key. -/
theorem mem_of_mem_dict_set (d : PyDict) (k : SKey) (v : PyRepl)
    (kv : SKey × PyRepl) (h : kv ∈ dict_set d k v) :
    kv = (k, v) ∨ (kv ∈ d ∧ kv.1 ≠ k) := by
  unfold dict_set at h
  by_cases hany : d.any (fun kv2 => kv2.1 == k) = true
  · rw [if_pos hany] at h
    obtain ⟨kv0, hkv0, heq⟩ := List.mem_map.mp h
    by_cases hk : (kv0.1 == k) = true
    · rw [if_pos hk] at heq
      exact Or.inl heq.symm
    · rw [if_neg hk] at heq
      subst heq
      exact Or.inr ⟨hkv0, by simpa using hk⟩
  · rw [if_neg hany] at h
    rcases List.mem_append.mp h with h2 | h2
    · refine Or.inr ⟨h2, fun hk => ?_⟩
      exact hany (List.any_eq_true.mpr ⟨kv, h2, by simp [hk]⟩)
    · exact Or.inl (by simpa using h2)

/-- Entries of a dict after pop: the old entries under other keys. -/
theorem mem_dict_pop (d : PyDict) (k : SKey) (kv : SKey × PyRepl) :
    kv ∈ dict_pop d k ↔ kv ∈ d ∧ kv.1 ≠ k := by
  simp [dict_pop, List.mem_filter, bne_iff_ne]

/-- One normalization step keeps an entry whose key is neither the
processed key nor the compiled pattern it may introduce. -/
theorem srd_step_preserves (d' : PyDict) (kv : SKey × PyRepl)
    (E : SKey × PyRepl) (hE : E ∈ d') (h1 : E.1 ≠ kv.1)
    (h2 : ∀ s', kv.1 = SKey.str s' → E.1 ≠ SKey.pat (CPat.escaped s')) :
    E ∈ srd_step d' kv := by
  cases hk : kv.1 with
  | str s0 =>
    simp only [srd_step, hk]
    apply mem_dict_set_of_ne _ _ _ E ?hmem (h2 s0 hk)
    case hmem =>
      rw [mem_dict_pop]
      refine ⟨?_, hk ▸ h1⟩
      exact mem_dict_set_of_ne _ _ _ E hE (hk ▸ h1)
  | pat p =>
    simp only [srd_step, hk]
    exact mem_dict_set_of_ne _ _ _ E hE (hk ▸ h1)

/-- A raw-string entry surviving one normalization step was already
present, and its key is not the key just processed. -/
theorem srd_step_str_inv (d' : PyDict) (kv0 : SKey × PyRepl) (s : Str)
    (v : PyRepl) (h : (SKey.str s, v) ∈ srd_step d' kv0) :
    (SKey.str s, v) ∈ d' ∧ SKey.str s ≠ kv0.1 := by
  cases hk0 : kv0.1 with
  | str s0 =>
    simp only [srd_step, hk0] at h
    rcases mem_of_mem_dict_set _ _ _ _ h with heq | ⟨hmem, hne⟩
    · simp at heq
    · obtain ⟨hmem2, hne2⟩ := (mem_dict_pop _ _ _).mp hmem
      rcases mem_of_mem_dict_set _ _ _ _ hmem2 with heq | ⟨hmem3, hne3⟩
      · exact absurd (congrArg Prod.fst heq) hne2
      · exact ⟨hmem3, hne3⟩
  | pat p =>
    simp only [srd_step, hk0] at h
    rcases mem_of_mem_dict_set _ _ _ _ h with heq | ⟨hmem, hne⟩
    · simp at heq
    · exact ⟨hmem, by simp⟩

/-- After folding the normalization step over a list holding (at least)
all raw-string keys still present, no raw-string entry remains. -/
theorem srd_no_str_fold :
    ∀ (l d' : PyDict),
      (∀ s v, (SKey.str s, v) ∈ d' → ∃ v2, (SKey.str s, v2) ∈ l) →
      ∀ s v, ¬ (SKey.str s, v) ∈ l.foldl srd_step d' := by
  intro l
  induction l with
  | nil =>
    intro d' hP s v hmem
    obtain ⟨v2, hv2⟩ := hP s v hmem
    exact absurd hv2 (List.not_mem_nil _)
  | cons kv0 rest ih =>
    intro d' hP s v
    simp only [List.foldl_cons]
    apply ih
    intro s2 v2 hmem2
    obtain ⟨hmem3, hne⟩ := srd_step_str_inv d' kv0 s2 v2 hmem2
    obtain ⟨v3, hv3⟩ := hP s2 v2 hmem3
    rcases List.mem_cons.mp hv3 with heq | hrest
    · exact absurd (congrArg Prod.fst heq) hne
    · exact ⟨v3, hrest⟩

/-- An entry untouched by every remaining normalization step survives
the fold. -/
theorem srd_entry_fold :
    ∀ (l2 d' : PyDict) (E : SKey × PyRepl),
      E ∈ d' →
      (∀ kv ∈ l2, E.1 ≠ kv.1 ∧
        ∀ s', kv.1 = SKey.str s' → E.1 ≠ SKey.pat (CPat.escaped s')) →
      E ∈ l2.foldl srd_step d' := by
  intro l2
  induction l2 with
  | nil =>
    intro d' E hE _
    exact hE
  | cons kv0 rest ih =>
    intro d' E hE hcond
    simp only [List.foldl_cons]
    apply ih
    · exact srd_step_preserves d' kv0 E hE (hcond kv0 (by simp)).1
        (hcond kv0 (by simp)).2
    · intro kv hkv
      exact hcond kv (List.mem_cons_of_mem _ hkv)

/-- After one normalization step every entry either carries a function
value already or is an old entry under a key other than the processed
one. -/
theorem srd_step_func_inv (d' : PyDict) (kv0 kv : SKey × PyRepl)
    (h : kv ∈ srd_step d' kv0) :
    (∃ g, kv.2 = PyRepl.func g) ∨ (kv ∈ d' ∧ kv.1 ≠ kv0.1) := by
  cases hk0 : kv0.1 with
  | str s0 =>
    simp only [srd_step, hk0] at h
    rcases mem_of_mem_dict_set _ _ _ _ h with heq | ⟨hmem, hne⟩
    · exact Or.inl ⟨_, congrArg Prod.snd heq⟩
    · obtain ⟨hmem2, hne2⟩ := (mem_dict_pop _ _ _).mp hmem
      rcases mem_of_mem_dict_set _ _ _ _ hmem2 with heq | ⟨hmem3, hne3⟩
      · exact Or.inl ⟨_, congrArg Prod.snd heq⟩
      · exact Or.inr ⟨hmem3, hne3⟩
  | pat p =>
    simp only [srd_step, hk0] at h
    rcases mem_of_mem_dict_set _ _ _ _ h with heq | ⟨hmem, hne⟩
    · exact Or.inl ⟨_, congrArg Prod.snd heq⟩
    · exact Or.inr ⟨hmem, hne⟩

/-- After folding the normalization step over a list holding (at least)
all keys whose values are not yet functions, every value is a function. -/
theorem srd_func_fold :
    ∀ (l d' : PyDict),
      (∀ kv ∈ d', (∃ g, kv.2 = PyRepl.func g) ∨ ∃ v2, (kv.1, v2) ∈ l) →
      ∀ kv ∈ l.foldl srd_step d', ∃ g, kv.2 = PyRepl.func g := by
  intro l
  induction l with
  | nil =>
    intro d' hP kv hkv
    rcases hP kv hkv with hf | ⟨v2, hv2⟩
    · exact hf
    · exact absurd hv2 (List.not_mem_nil _)
  | cons kv0 rest ih =>
    intro d' hP kv hkv
    simp only [List.foldl_cons] at hkv
    refine ih (srd_step d' kv0) ?_ kv hkv
    intro kv2 hkv2
    rcases srd_step_func_inv d' kv0 kv2 hkv2 with hf | ⟨hmem, hne⟩
    · exact Or.inl hf
    · rcases hP kv2 hmem with hf | ⟨v2, hv2⟩
      · exact Or.inl hf
      · rcases List.mem_cons.mp hv2 with heq | hrest
        · exact absurd (congrArg Prod.fst heq) hne
        · exact Or.inr ⟨v2, hrest⟩

/-- Claim C9.  For a caller dict with unique keys, none of which is
already the compiled pattern of one of its string keys, the key
normalization of search_replace_dict removes every raw-string key
(part 1), stores each string key's value under the compiled-pattern key
as a replacement function (part 2), leaves only function values
(part 3), and hence does not leave a dict with a string key unchanged
(part 4). -/
theorem claim_C9_dict_mutation (d : PyDict)
    (hnd : (d.map Prod.fst).Nodup)
    (hfresh : ∀ s, SKey.pat (CPat.escaped s) ∉ d.map Prod.fst) :
    (∀ s v, (SKey.str s, v) ∉ search_replace_dict_normalize d) ∧
    (∀ s v, (SKey.str s, v) ∈ d →
      (SKey.pat (CPat.escaped s), PyRepl.func (to_replacement_func v))
        ∈ search_replace_dict_normalize d) ∧
    (∀ kv ∈ search_replace_dict_normalize d, ∃ g, kv.2 = PyRepl.func g) ∧
    ((∃ s v, (SKey.str s, v) ∈ d) → search_replace_dict_normalize d ≠ d) := by
  have hno : ∀ s v, (SKey.str s, v) ∉ search_replace_dict_normalize d :=
    fun s v => srd_no_str_fold d d (fun s2 v2 h => ⟨v2, h⟩) s v
  have hfunc : ∀ kv ∈ search_replace_dict_normalize d, ∃ g, kv.2 = PyRepl.func g :=
    fun kv hkv => srd_func_fold d d (fun kv2 h => Or.inr ⟨kv2.2, h⟩) kv hkv
  refine ⟨hno, ?_, hfunc, ?_⟩
  · intro s v hmem
    obtain ⟨l1, l2, hsplit⟩ := List.append_of_mem hmem
    have hkeys : d.map Prod.fst
        = l1.map Prod.fst ++ SKey.str s :: l2.map Prod.fst := by
      rw [hsplit]
      simp
    have hnotin2 : SKey.str s ∉ l2.map Prod.fst := by
      rw [hkeys] at hnd
      have hc := (List.nodup_append.mp hnd).2.1
      exact (List.nodup_cons.mp hc).1
    rw [search_replace_dict_normalize]
    conv_lhs => rw [hsplit]
    rw [List.foldl_append, List.foldl_cons]
    apply srd_entry_fold
    · show _ ∈ srd_step _ (SKey.str s, v)
      simp only [srd_step]
      exact mem_dict_set_self _ _ _
    · intro kv hkv
      have hkvd : kv ∈ d := by
        rw [hsplit]
        exact List.mem_append.mpr (Or.inr (List.mem_cons_of_mem _ hkv))
      have hkv_key : kv.1 ∈ d.map Prod.fst := List.mem_map_of_mem _ hkvd
      constructor
      · intro hEk
        rw [← hEk] at hkv_key
        exact hfresh s hkv_key
      · intro s' hks' hEe
        have hEe2 : SKey.pat (CPat.escaped s) = SKey.pat (CPat.escaped s') := hEe
        injection hEe2 with h1
        injection h1 with h2
        subst h2
        apply hnotin2
        rw [← hks']
        exact List.mem_map_of_mem _ hkv
  · rintro ⟨s, v, hmem⟩ heq
    exact hno s v (by rw [heq]; exact hmem)

/-- Witness for claim C9: normalizing the dict with the single string
key a removes every string key and changes the dict. -/
theorem claim_C9_witness :
    (∀ s v, (SKey.str s, v) ∉ search_replace_dict_normalize dict_ab) ∧
    search_replace_dict_normalize dict_ab ≠ dict_ab :=
  ⟨(claim_C9_dict_mutation dict_ab (by simp [dict_ab])
      (fun s hs => by simp [dict_ab] at hs)).1,
   (claim_C9_dict_mutation dict_ab (by simp [dict_ab])
      (fun s hs => by simp [dict_ab] at hs)).2.2.2
     ⟨'a' :: [], PyRepl.lit ('b' :: []), by simp [dict_ab]⟩⟩

end Dxsr
